import Mathlib

/-!
# twipi/pubsub: growable FIFO queue and subscriber registry

Shallow embedding of `queue.go` and `pubsub.go`.

Conventions of the embedding.

* A Go slice `[]T` is a `List T`; the zero value of `T` is `default` of an
  `Inhabited T` instance.  A nil slice is the empty list (Go gives both length 0
  and faults on every index).
* Go `int` values are `Int`.  Every integer the queue computes is bounded in
  absolute value by twice the length of an allocated slice, so 64-bit wrap-around
  cannot occur and no reduction modulo `2^64` is applied.
* A run-time fault (index out of range, division by zero, negative `make` size)
  is the result `none`.
* Methods with a pointer receiver are state transformers on `Queue T`.
-/

set_option linter.unusedSectionVars false
set_option linter.unusedVariables false

namespace Pubsub

/-! ## Go primitives -/

/-- Go `make([]T, n)`: faults for negative `n`, otherwise `n` zero values. -/
def makeSlice (T : Type) [Inhabited T] (n : Int) : Option (List T) :=
  if n < 0 then none else some (List.replicate n.toNat default)

/-- Go `a % b` on `int`: faults for `b = 0`, otherwise the truncated remainder. -/
def goMod (a b : Int) : Option Int :=
  if b = 0 then none else some (Int.tmod a b)

/-- Go `xs[i]` as an expression: faults unless `0 ≤ i < len(xs)`. -/
def index {T : Type} (xs : List T) (i : Int) : Option T :=
  if 0 ≤ i then xs[i.toNat]? else none

/-- Go `xs[i] = v`: faults unless `0 ≤ i < len(xs)`. -/
def setIndex {T : Type} (xs : List T) (i : Int) (v : T) : Option (List T) :=
  if 0 ≤ i ∧ i < (xs.length : Int) then some (xs.set i.toNat v) else none

/-! ## queue.go -/

/-- The struct `Queue[T]`; the field `end` of the source is `end_` here. -/
structure Queue (T : Type) where
  circ : List T
  start : Int
  end_ : Int
deriving DecidableEq, Repr

variable {T : Type} [Inhabited T]

/-- The zero value of `Queue[T]`: nil buffer, `start = end = 0`. -/
def zeroQueue (T : Type) : Queue T := ⟨[], 0, 0⟩

/-- Source `newQueue`. -/
def newQueue (cap : Int) : Option (Queue T) :=
  (makeSlice T cap).map fun c => ⟨c, 0, 0⟩

/-- Source `NewQueue`. -/
def NewQueue : Option (Queue T) := newQueue 16

/-- Source `NewQueueWithCapacity`: the argument passed on is `min(cap, 16)`. -/
def NewQueueWithCapacity (cap : Int) : Option (Queue T) := newQueue (min cap 16)

/-- Source `Queue.len`. -/
def Queue.len (q : Queue T) : Int :=
  if q.start ≤ q.end_ then q.end_ - q.start
  else (q.circ.length : Int) - q.start + q.end_

/-- Source `Queue.at`. -/
def Queue.at (q : Queue T) (i : Int) : Option T :=
  (goMod (q.start + i) q.circ.length).bind fun j => index q.circ j

/-- The loop `for i := range oldLen { newCirc[i] = q.at(i) }` of `grow`, with `n`
iterations left and `i` the loop variable. -/
def growCopy (q : Queue T) : Nat → Int → List T → Option (List T)
  | 0, _, acc => some acc
  | n + 1, i, acc =>
    (q.at i).bind fun v => (setIndex acc i v).bind fun acc1 => growCopy q n (i + 1) acc1

/-- Source `Queue.grow`. -/
def Queue.grow (q : Queue T) : Option (Queue T) :=
  let oldLen := q.len
  (makeSlice T ((q.circ.length : Int) * 2)).bind fun newCirc =>
    (growCopy q oldLen.toNat 0 newCirc).map fun c => ⟨c, 0, oldLen⟩

/-- Source `Queue.isFull`. -/
def Queue.isFull (q : Queue T) : Bool :=
  decide (q.len = (q.circ.length : Int) - 1)

/-- Source `Queue.Pending`, returning the result and the (untouched) queue. -/
def Queue.Pending (q : Queue T) : Option ((T × Bool) × Queue T) :=
  if q.len = 0 then some ((default, false), q)
  else (q.at 0).map fun v => ((v, true), q)

/-- Source `Queue.PendingOrZero`. -/
def Queue.PendingOrZero (q : Queue T) : Option (T × Queue T) :=
  q.Pending.map fun r => (r.1.1, r.2)

/-- Source `Queue.Dequeue`. -/
def Queue.Dequeue (q : Queue T) : Option (Queue T) :=
  if q.len = 0 then some q
  else
    (setIndex q.circ q.start default).bind fun c =>
      (goMod (q.start + 1) c.length).map fun s => ⟨c, s, q.end_⟩

/-- Source `Queue.IsEmpty`. -/
def Queue.IsEmpty (q : Queue T) : Bool := decide (q.len = 0)

/-- Source `Queue.Enqueue`. -/
def Queue.Enqueue (q : Queue T) (v : T) : Option (Queue T) :=
  (if q.isFull then q.grow else some q).bind fun q1 =>
    (setIndex q1.circ q1.end_ v).bind fun c =>
      (goMod (q1.end_ + 1) c.length).map fun e => ⟨c, q1.start, e⟩

/-! ### Operation sequences -/

/-- The two mutating calls a client can make on a queue. -/
inductive QOp (T : Type) where
  | enq (v : T)
  | deq
deriving DecidableEq, Repr

/-- One call on the circular buffer. -/
def QOp.apply (q : Queue T) : QOp T → Option (Queue T)
  | .enq v => q.Enqueue v
  | .deq => q.Dequeue

/-- A sequence of calls, left to right; a fault anywhere is a fault of the run. -/
def runOps : List (QOp T) → Queue T → Option (Queue T)
  | [], q => some q
  | op :: ops, q => (op.apply q).bind (runOps ops)

/-- One call on the list of the specification: `Enqueue(v)` appends `v` at the back,
`Dequeue` removes the front element (nothing when empty). -/
def QOp.specApply (l : List T) : QOp T → List T
  | .enq v => l ++ [v]
  | .deq => l.tail

/-- A sequence of calls on the list of the specification. -/
def specRun : List (QOp T) → List T → List T
  | [], l => l
  | op :: ops, l => specRun ops (op.specApply l)

/-- The not-yet-dequeued elements, oldest first, read off the buffer. -/
def Queue.contents (q : Queue T) : List T :=
  (List.range q.len.toNat).map fun i =>
    q.circ.getD ((q.start.toNat + i) % q.circ.length) default

/-- Indices lie inside a non-empty buffer. -/
def Queue.WF (q : Queue T) : Prop :=
  0 < q.circ.length ∧ 0 ≤ q.start ∧ q.start < q.circ.length ∧
    0 ≤ q.end_ ∧ q.end_ < q.circ.length

instance (q : Queue T) : Decidable q.WF := by
  unfold Queue.WF
  infer_instance

/-- Element count of a well-formed buffer, on natural numbers. -/
def natLen (n s e : Nat) : Nat := if s ≤ e then e - s else n - s + e

/-! ## pubsub.go: the registry

`Subscribe` and `Unsubscribe` hold the exclusive lock `s.mu` for their whole body and
`publish` holds the shared lock, so each call acts atomically on the registry and is
a function of the state.  Channels are represented by their identity, a number:
the endpoint `ch` is chosen by the caller, `queue` and `stop` are made by
`Subscribe` and numbered by a counter.  A call that panics returns `panicked`
with the state at the moment of the panic. -/

/-- The struct `pipeSub[T]`; `queue` and `stop` hold channel identities. -/
structure pipeSub (T : Type) where
  filter : T → Bool
  queue : Nat
  stop : Nat

/-- A goroutine started by `Subscribe`, with the three channels it captures. -/
structure PumpRef where
  ch : Nat
  queue : Nat
  stop : Nat
deriving DecidableEq, Repr

/-- The struct `Subscriber[T]` (field `subs`; `none` is the nil map) together with the
part of the heap its methods act on: the number of channels made so far, the stop
channels closed so far and the goroutines started so far. -/
structure Subscriber (T : Type) where
  subs : Option (List (Nat × pipeSub T))
  nextChan : Nat
  closed : List Nat
  pumps : List PumpRef

/-- Result of a call: normal return, or a panic with its message. -/
inductive Outcome (σ : Type) where
  | done (s : σ)
  | panicked (msg : String) (s : σ)

/-- Go `v, ok := m[k]`; reading a nil map finds nothing. -/
def mapGet {α : Type} (m : Option (List (Nat × α))) (k : Nat) : Option α :=
  match m with
  | none => none
  | some l => (l.find? fun p => p.1 == k).map fun p => p.2

/-- Go `delete(m, k)`; a no-op on a nil map. -/
def mapDelete {α : Type} (m : Option (List (Nat × α))) (k : Nat) :
    Option (List (Nat × α)) :=
  m.map fun l => l.filter fun p => p.1 != k

/-- Go `m[k] = v` on a non-nil map. -/
def mapSet {α : Type} (l : List (Nat × α)) (k : Nat) (v : α) : List (Nat × α) :=
  (k, v) :: l.filter fun p => p.1 != k

/-- Source `NewSubscriber`: the zero value. -/
def NewSubscriber (T : Type) : Subscriber T := ⟨none, 0, [], []⟩

/-- Source `Subscriber.Subscribe`; a nil `filter` is `none`. -/
def Subscriber.Subscribe (s : Subscriber T) (ch : Nat) (filter : Option (T → Bool)) :
    Outcome (Subscriber T) :=
  let filter : T → Bool := match filter with
    | none => fun _ => true
    | some f => f
  let l : List (Nat × pipeSub T) := match s.subs with
    | none => []
    | some l => l
  let s1 : Subscriber T := { s with subs := some l }
  match mapGet s1.subs ch with
  | some _ => .panicked "twipi: channel already subscribed" s1
  | none =>
    let queue := s1.nextChan
    let stop := s1.nextChan + 1
    .done
      { subs := some (mapSet l ch ⟨filter, queue, stop⟩)
        nextChan := s1.nextChan + 2
        closed := s1.closed
        pumps := ⟨ch, queue, stop⟩ :: s1.pumps }

/-- Source `Subscriber.unsub`; closing a closed channel panics. -/
def Subscriber.unsub (s : Subscriber T) (ch : Nat) : Outcome (Subscriber T) :=
  match mapGet s.subs ch with
  | none => .done s
  | some sub =>
    if sub.stop ∈ s.closed then .panicked "close of closed channel" s
    else .done { s with closed := sub.stop :: s.closed, subs := mapDelete s.subs ch }

/-- Source `Subscriber.Unsubscribe`. -/
def Subscriber.Unsubscribe (s : Subscriber T) (ch : Nat) : Outcome (Subscriber T) :=
  s.unsub ch

/-- A call of the registration interface. -/
inductive Call (T : Type) where
  | subscribe (ch : Nat) (filter : Option (T → Bool))
  | unsubscribe (ch : Nat)

/-- One call on the registry. -/
def Call.apply (s : Subscriber T) : Call T → Outcome (Subscriber T)
  | .subscribe ch filter => s.Subscribe ch filter
  | .unsubscribe ch => s.Unsubscribe ch

/-- A sequence of calls; the first panic ends the run. -/
def runCalls : List (Call T) → Subscriber T → Outcome (Subscriber T)
  | [], s => .done s
  | c :: cs, s =>
    match c.apply s with
    | .done s1 => runCalls cs s1
    | .panicked msg s1 => .panicked msg s1

/-- The stop signal held for endpoint `ch`, if registered, is closed. -/
def Subscriber.stopClosed (s : Subscriber T) (ch : Nat) : Option Bool :=
  (mapGet s.subs ch).map fun sub => decide (sub.stop ∈ s.closed)

/-- Invariant of the registry: the channels of every entry and of every goroutine were
made earlier, the stop channel of every entry is open, different endpoints hold
different stop channels, and every closed channel was made earlier. -/
def RegInv (s : Subscriber T) : Prop :=
  (∀ k sub, mapGet s.subs k = some sub →
    sub.stop < s.nextChan ∧ sub.queue < s.nextChan ∧ sub.stop ∉ s.closed) ∧
  (∀ k1 k2 sub1 sub2, mapGet s.subs k1 = some sub1 → mapGet s.subs k2 = some sub2 →
    sub1.stop = sub2.stop → k1 = k2) ∧
  (∀ c ∈ s.closed, c < s.nextChan) ∧
  (∀ p ∈ s.pumps, p.stop < s.nextChan ∧ p.queue < s.nextChan)

/-! ## pubsub.go: one subscription, from `publish` to the endpoint

The goroutine of `Subscribe` and the handoff in `publish` are a transition system on
the state of one subscription.  Each action is one branch of a `select`, taken
atomically; an action that is not enabled in a state has no successor. -/

/-- Local variables of the goroutine started by `Subscribe`: `dst` is nil or `ch`. -/
structure PumpState (T : Type) where
  dstSet : Bool
  pending : Queue T
  running : Bool
deriving DecidableEq, Repr

/-- One subscription and what surrounds it: the buffer of `queue` (capacity 1),
whether `stop` is closed and the context done, the goroutine, the number of
`close(ch)` executed, the values the endpoint has received, and the values for
which `publish` has reached this subscription. -/
structure SubSys (T : Type) where
  relay : List T
  stopClosed : Bool
  ctxDone : Bool
  pump : PumpState T
  closes : Nat
  received : List T
  published : List T
deriving DecidableEq, Repr

/-- The branches that can be taken. -/
inductive Act (T : Type) where
  | publish (m : T)
  | publishCtxDone (m : T)
  | cancel
  | unsubscribe
  | pumpRecv
  | pumpSend
  | pumpStop
deriving DecidableEq, Repr

/-- State right after `Subscribe`: empty relay, `dst` nil, `pending := NewQueue()`. -/
def SubSys.init : Option (SubSys T) :=
  (NewQueue : Option (Queue T)).map fun q =>
    { relay := [], stopClosed := false, ctxDone := false,
      pump := { dstSet := false, pending := q, running := true },
      closes := 0, received := [], published := [] }

/-- One branch, for a subscription with filter `f`.

* `publish m`: the body of the loop of `publish` for this subscription while it is in
  the registry: `continue` when `f m` is false, else `sub.queue <- value`, enabled
  when the buffer of capacity 1 has room.
* `publishCtxDone m`: the same body taking `case <-ctx.Done(): return`.
* `cancel`: the context is cancelled.  `unsubscribe`: `unsub` closes `stop`.
* `pumpRecv`: `case msg := <-queue`.  `pumpSend`: `case dst <- pending.PendingOrZero()`
  with the subscriber receiving, enabled when `dst` is not nil.
  `pumpStop`: `case <-stop`. -/
def step (f : T → Bool) (s : SubSys T) : Act T → Option (SubSys T)
  | .publish m =>
    if s.stopClosed then none
    else if !f m then some { s with published := s.published ++ [m] }
    else if s.relay.length < 1 then
      some { s with relay := s.relay ++ [m], published := s.published ++ [m] }
    else none
  | .publishCtxDone m =>
    if s.stopClosed then none
    else if f m && s.ctxDone then some { s with published := s.published ++ [m] }
    else none
  | .cancel => some { s with ctxDone := true }
  | .unsubscribe =>
    if s.stopClosed then none else some { s with stopClosed := true }
  | .pumpRecv =>
    if !s.pump.running then none
    else match s.relay with
      | [] => none
      | msg :: rest =>
        (s.pump.pending.Enqueue msg).map fun q =>
          { s with relay := rest, pump := { s.pump with pending := q, dstSet := true } }
  | .pumpSend =>
    if !s.pump.running || !s.pump.dstSet then none
    else
      s.pump.pending.PendingOrZero.bind fun r =>
        r.2.Dequeue.map fun q =>
          { s with
            received := s.received ++ [r.1]
            pump := { s.pump with
              pending := q
              dstSet := if q.IsEmpty then false else s.pump.dstSet } }
  | .pumpStop =>
    if s.pump.running && s.stopClosed then
      some { s with closes := s.closes + 1, pump := { s.pump with running := false } }
    else none

/-- A schedule, branch after branch. -/
def runActs (f : T → Bool) : List (Act T) → SubSys T → Option (SubSys T)
  | [], s => some s
  | a :: as, s => (step f s a).bind (runActs f as)

/-- A schedule from the state right after `Subscribe`. -/
def runSys (f : T → Bool) (acts : List (Act T)) : Option (SubSys T) :=
  SubSys.init.bind (runActs f acts)

/-- Invariant of the goroutine of one subscription, whatever the context does: its
queue is well formed, `dst` is set exactly when the queue holds something, the
relay holds at most one value, and the goroutine returns only after `stop` was
closed. -/
def PumpInv (s : SubSys T) : Prop :=
  s.pump.pending.WF ∧
  (s.pump.dstSet = true ↔ s.pump.pending.contents ≠ []) ∧
  s.relay.length ≤ 1 ∧
  (s.pump.running = false → s.stopClosed = true)

/-- The values the goroutine takes from the relay along a schedule from `s`: each
`pumpRecv` that is taken contributes the value at the head of the relay. -/
def takenBy (f : T → Bool) : List (Act T) → SubSys T → List T
  | [], _ => []
  | a :: as, s =>
    match step f s a with
    | none => []
    | some s1 =>
      match a with
      | .pumpRecv => s.relay.take 1 ++ takenBy f as s1
      | _ => takenBy f as s1

/-- The values the goroutine takes from the relay along a schedule from the state
right after `Subscribe`. -/
def takenSys (f : T → Bool) (acts : List (Act T)) : List T :=
  match (SubSys.init : Option (SubSys T)) with
  | none => []
  | some s0 => takenBy f acts s0

/-- The values of the handoffs of a schedule that `publish` did not abandon, in order:
those of its `publish` branches (`continue` on a rejecting filter, or
`case sub.queue <- value`). -/
def handedOver : List (Act T) → List T
  | [] => []
  | .publish m :: as => m :: handedOver as
  | _ :: as => handedOver as

/-- The values of the handoffs of a schedule that took `case <-ctx.Done(): return`. -/
def abandoned : List (Act T) → List T
  | [] => []
  | .publishCtxDone m :: as => m :: abandoned as
  | _ :: as => abandoned as

/-! ## pubsub.go: `publish` and `Listen`

A `select` with several ready branches takes any of them, and `range` over a map
yields the entries in any order.  Both choices are arguments of the embedding:
`choice ch` is the branch taken in the handoff to endpoint `ch`, `order` rearranges
the entries, and a list of `Sel` gives the branch each iteration of `Listen` takes. -/

/-- The branch the `select` of `publish` takes for one accepting subscription. -/
inductive Handoff where
  | ctxDone
  | stopFired
  | sent
deriving DecidableEq, Repr

/-- The loop of `publish` over the entries as `range` yields them; the result lists, in
order, the endpoints whose relay was handed the value. -/
def publishLoop (value : T) (choice : Nat → Handoff) : List (Nat × pipeSub T) → List Nat
  | [] => []
  | (ch, sub) :: rest =>
    if !sub.filter value then publishLoop value choice rest
    else
      match choice ch with
      | .ctxDone => []
      | .stopFired => []
      | .sent => ch :: publishLoop value choice rest

/-- The entries of the registry; a nil map has none. -/
def Subscriber.entries (s : Subscriber T) : List (Nat × pipeSub T) :=
  match s.subs with
  | none => []
  | some l => l

/-- Source `Subscriber.publish`; `order` is the order in which `range` yields the
entries. -/
def Subscriber.publish (s : Subscriber T) (value : T) (choice : Nat → Handoff)
    (order : List (Nat × pipeSub T) → List (Nat × pipeSub T)) : List Nat :=
  publishLoop value choice (order s.entries)

/-- The loop of `publish` as the specification words it: a stop signal that fires
abandons the delivery to that subscriber only, and only the cancellation token
makes `publish` skip the remaining subscribers. -/
def specPublishLoop (value : T) (choice : Nat → Handoff) :
    List (Nat × pipeSub T) → List Nat
  | [] => []
  | (ch, sub) :: rest =>
    if !sub.filter value then specPublishLoop value choice rest
    else
      match choice ch with
      | .ctxDone => []
      | .stopFired => specPublishLoop value choice rest
      | .sent => ch :: specPublishLoop value choice rest

/-- The endpoints of the entries whose filter accepts the value. -/
def accepting (value : T) (l : List (Nat × pipeSub T)) : List Nat :=
  (l.filter fun p => p.2.filter value).map fun p => p.1

/-- A branch of the `select` of `publish` is taken only when it is ready.
`case <-sub.stop` is ready when the stop channel of the entry is closed.  `publish`
holds `s.mu.RLock()` from before its loop until it returns, and `close(sub.stop)` is
executed by `unsub` alone, under `s.mu.Lock()`; so at every handoff of one call the
closed stop channels are those of the state `s` the call started in.  The other
two branches are left to the schedule: the context can be cancelled at any time,
and the goroutine takes from the relay. -/
def Handoff.ready (s : Subscriber T) (sub : pipeSub T) : Handoff → Bool
  | .stopFired => decide (sub.stop ∈ s.closed)
  | .ctxDone => true
  | .sent => true

/-- The error a done context reports through `ctx.Err()`. -/
inductive CtxErr where
  | canceled
  | deadlineExceeded
deriving DecidableEq, Repr

/-- The branch one iteration of the `select` of `Listen` takes: `<-ctx.Done()` with the
error the context then reports, a value received from `src`, or `src` found closed. -/
inductive Sel (T : Type) where
  | ctxDone (err : CtxErr)
  | recv (msg : T)
  | srcClosed
deriving DecidableEq, Repr

/-- What `Listen` does with a value: it receives it from `src`, then `publish` is
called with it and returns. -/
inductive ListenEv (T : Type) where
  | pulled (msg : T)
  | published (msg : T)
deriving DecidableEq, Repr

/-- The `for` loop of `Listen`.  The second component is `none` while `Listen` has not
returned, `some none` for `return nil` and `some (some e)` for `return ctx.Err()`. -/
def listenLoop : List (Sel T) → List (ListenEv T) × Option (Option CtxErr)
  | [] => ([], none)
  | .ctxDone err :: _ => ([], some (some err))
  | .srcClosed :: _ => ([], some none)
  | .recv msg :: rest =>
    (.pulled msg :: .published msg :: (listenLoop rest).1, (listenLoop rest).2)

/-- Source `Subscriber.Listen`: a nil map is replaced by an empty one, then the loop
runs.  Returns the registry, what was done, and the return value. -/
def Subscriber.Listen (s : Subscriber T) (sels : List (Sel T)) :
    Subscriber T × List (ListenEv T) × Option (Option CtxErr) :=
  let s1 : Subscriber T :=
    match s.subs with
    | none => { s with subs := some [] }
    | some _ => s
  (s1, listenLoop sels)

/-- The trace of a `Listen` that received `msgs`. -/
def listenTrace (msgs : List T) : List (ListenEv T) :=
  msgs.flatMap fun m => [.pulled m, .published m]

/-! ## pubsub.go: registry, goroutines and endpoints together

The registry calls, the handoffs of `publish` and the branches of every goroutine
`Subscribe` has started, interleaved in any order.  A goroutine is identified by
its stop channel.  Every send to an endpoint and every `close` of one is appended
to a log; Go panics on a second `close` of a channel and on a send to a closed
one, which shows in the log as an event that follows a `close` of that endpoint. -/

/-- What a goroutine does to the endpoint it was started with. -/
inductive ChanEv where
  | send
  | close
deriving DecidableEq, Repr

/-- A goroutine started by `Subscribe`: the channels it captured, the filter of the entry
it serves, and the state of its subscription. -/
structure Proc (T : Type) where
  ref : PumpRef
  filter : T → Bool
  sys : SubSys T

/-- The registry, the goroutines by the identity of their stop channel, and the sends
to and closes of endpoints in the order they happened. -/
structure Net (T : Type) where
  reg : Subscriber T
  procs : Nat → Option (Proc T)
  log : List (Nat × ChanEv)

/-- What can happen next: a registry call, `publish` reaching the entry whose stop
channel is `k`, or the goroutine of stop channel `k` taking a branch. -/
inductive NetAct (T : Type) where
  | subscribe (ch : Nat) (filter : Option (T → Bool))
  | unsubscribe (ch : Nat)
  | handoff (k : Nat) (m : T)
  | pump (k : Nat) (a : Act T)

/-- Before any call: the zero-value subscriber, no goroutine, nothing logged. -/
def Net.init (T : Type) : Net T := ⟨NewSubscriber T, fun _ => none, []⟩

/-- The goroutine of stop channel `k` is replaced by `p`. -/
def Net.setProc (n : Net T) (k : Nat) (p : Proc T) : Net T :=
  { n with procs := fun j => if j = k then some p else n.procs j }

/-- One step of the whole.  A call that panics has no successor.

* `subscribe`: `Subscribe` returns; the goroutine it started (the head of `pumps`)
  begins in the state right after `Subscribe`.
* `unsubscribe`: `Unsubscribe` returns; the goroutine holding the stop channel that
  was closed sees it closed.
* `handoff k m`: `publish`, holding the read lock, is at the entry whose stop channel
  is `k`, which is still in the registry, and takes `continue` or `sub.queue <- m`.
* `pump k a`: the goroutine takes `case msg := <-queue`, `case dst <- ...` (a send to
  its endpoint) or `case <-stop` (a `close` of its endpoint). -/
def netStep (n : Net T) : NetAct T → Option (Net T)
  | .subscribe ch filter =>
    match n.reg.Subscribe ch filter with
    | .panicked _ _ => none
    | .done reg1 =>
      match reg1.pumps.head?, mapGet reg1.subs ch, (SubSys.init : Option (SubSys T)) with
      | some ref, some sub, some s0 =>
        some (Net.setProc { n with reg := reg1 } ref.stop ⟨ref, sub.filter, s0⟩)
      | _, _, _ => none
  | .unsubscribe ch =>
    match n.reg.Unsubscribe ch with
    | .panicked _ _ => none
    | .done reg1 =>
      match mapGet n.reg.subs ch with
      | none => some { n with reg := reg1 }
      | some sub =>
        match n.procs sub.stop with
        | none => some { n with reg := reg1 }
        | some p =>
          some (Net.setProc { n with reg := reg1 } sub.stop
            { p with sys := { p.sys with stopClosed := true } })
  | .handoff k m =>
    match n.procs k with
    | none => none
    | some p =>
      match mapGet n.reg.subs p.ref.ch with
      | none => none
      | some sub =>
        if sub.stop = k then
          (step p.filter p.sys (.publish m)).map fun s1 =>
            n.setProc k { p with sys := s1 }
        else none
  | .pump k a =>
    match n.procs k with
    | none => none
    | some p =>
      match a with
      | .pumpRecv =>
        (step p.filter p.sys .pumpRecv).map fun s1 => n.setProc k { p with sys := s1 }
      | .pumpSend =>
        (step p.filter p.sys .pumpSend).map fun s1 =>
          Net.setProc { n with log := n.log ++ [(p.ref.ch, .send)] } k { p with sys := s1 }
      | .pumpStop =>
        (step p.filter p.sys .pumpStop).map fun s1 =>
          Net.setProc { n with log := n.log ++ [(p.ref.ch, .close)] } k { p with sys := s1 }
      | _ => none

/-- A run of the whole, step after step. -/
def netRun : List (NetAct T) → Net T → Option (Net T)
  | [], n => some n
  | a :: as, n => (netStep n a).bind (netRun as)

/-- The events on endpoint `e`, in order. -/
def eventsOn (log : List (Nat × ChanEv)) (e : Nat) : List ChanEv :=
  (log.filter fun x => x.1 == e).map fun x => x.2

/-- Number of `close` among the events. -/
def closeCount (evs : List ChanEv) : Nat := evs.count .close

/-- Sends, then at most one `close`, and nothing after it. -/
def evOk : List ChanEv → Bool
  | [] => true
  | .send :: rest => evOk rest
  | .close :: rest => rest.isEmpty

/-- Invariant of the whole: the registry invariant, no stop channel closed twice, and
for every goroutine: it is keyed by its stop channel, it was started by
`Subscribe`, it sees its stop channel closed exactly when it is, it has returned
only after that, and its endpoint has no `close` while it runs and exactly one,
as last event, after it returned; every logged event is on the endpoint of a
goroutine. -/
def NetInv (n : Net T) : Prop :=
  RegInv n.reg ∧ n.reg.closed.Nodup ∧
  (∀ k p, n.procs k = some p →
    p.ref.stop = k ∧ p.ref ∈ n.reg.pumps ∧
    (p.sys.stopClosed = true ↔ k ∈ n.reg.closed) ∧
    (p.sys.pump.running = false → p.sys.stopClosed = true) ∧
    (p.sys.pump.running = true → closeCount (eventsOn n.log p.ref.ch) = 0) ∧
    (p.sys.pump.running = false →
      evOk (eventsOn n.log p.ref.ch) = true ∧
      closeCount (eventsOn n.log p.ref.ch) = 1)) ∧
  (∀ x ∈ n.log, ∃ k p, n.procs k = some p ∧ p.ref.ch = x.1)

/-! ## Auxiliary facts about the primitives -/

theorem getD_set_eq (l : List T) (i j : Nat) (a d : T) (hi : i < l.length) :
    (l.set i a).getD j d = if i = j then a else l.getD j d := by
  simp only [List.getD_eq_getElem?_getD, List.getElem?_set]
  split <;> simp [hi]

theorem goMod_natCast (a b : Nat) (hb : 0 < b) :
    goMod (a : Int) (b : Int) = some ((a % b : Nat) : Int) := by
  unfold goMod
  rw [if_neg (by omega)]
  rfl

theorem index_natCast (xs : List T) (i : Nat) (h : i < xs.length) :
    index xs (i : Int) = some (xs.getD i default) := by
  simp [index, List.getD_eq_getElem?_getD, List.getElem?_eq_getElem h]

theorem setIndex_natCast (xs : List T) (i : Nat) (v : T) (h : i < xs.length) :
    setIndex xs (i : Int) v = some (xs.set i v) := by
  simp [setIndex, h]

theorem mod_wrap (s i n : Nat) (hs : s < n) (hi : i < n) :
    (s + i) % n = if s + i < n then s + i else s + i - n := by
  split
  · exact Nat.mod_eq_of_lt (by assumption)
  · rw [Nat.mod_eq_sub_mod (by omega)]
    exact Nat.mod_eq_of_lt (by omega)

theorem WF_exists_nat {q : Queue T} (h : q.WF) :
    ∃ (c : List T) (s e : Nat), q = ⟨c, s, e⟩ ∧ 0 < c.length ∧ s < c.length ∧ e < c.length := by
  rcases q with ⟨c, s, e⟩
  obtain ⟨h0, h1, h2, h3, h4⟩ := h
  simp only at h0 h1 h2 h3 h4
  refine ⟨c, s.toNat, e.toNat, ?_, h0, by omega, by omega⟩
  rw [Int.toNat_of_nonneg h1, Int.toNat_of_nonneg h3]

theorem WF_natCast (c : List T) (s e : Nat) (hs : s < c.length) (he : e < c.length) :
    Queue.WF (⟨c, s, e⟩ : Queue T) := by
  unfold Queue.WF
  simp only
  omega

theorem len_natCast (c : List T) (s e : Nat) (hs : s < c.length) :
    Queue.len (⟨c, s, e⟩ : Queue T) = (natLen c.length s e : Int) := by
  unfold Queue.len natLen
  simp only
  split_ifs <;> omega

theorem natLen_zero (n k : Nat) : natLen n 0 k = k := by
  simp [natLen]

theorem natLen_lt (n s e : Nat) (hs : s < n) (he : e < n) : natLen n s e < n := by
  unfold natLen
  split <;> omega

theorem at_natCast (c : List T) (s e i : Nat) (hn : 0 < c.length) :
    Queue.at (⟨c, s, e⟩ : Queue T) (i : Int) =
      some (c.getD ((s + i) % c.length) default) := by
  unfold Queue.at
  have hc : ((s : Int) + (i : Int)) = ((s + i : Nat) : Int) := by push_cast; rfl
  simp only [hc, goMod_natCast _ _ hn, Option.some_bind]
  exact index_natCast _ _ (Nat.mod_lt _ hn)

theorem contents_natCast (c : List T) (s e : Nat) (hs : s < c.length) :
    Queue.contents (⟨c, s, e⟩ : Queue T) =
      (List.range (natLen c.length s e)).map fun i =>
        c.getD ((s + i) % c.length) default := by
  unfold Queue.contents
  rw [len_natCast c s e hs]
  simp

theorem contents_length (q : Queue T) : q.contents.length = q.len.toNat := by
  simp [Queue.contents]

/-! ## The circular buffer implements a list -/

/-- Writing at `end` and advancing it appends, when a slot is free. -/
theorem push_contents (c : List T) (s e : Nat) (v : T) (hs : s < c.length)
    (he : e < c.length) (hfree : natLen c.length s e + 1 < c.length) :
    Queue.contents (⟨c.set e v, s, ((e + 1) % c.length : Nat)⟩ : Queue T) =
      Queue.contents (⟨c, s, e⟩ : Queue T) ++ [v] := by
  rw [contents_natCast _ _ _ (by simpa using hs), contents_natCast _ _ _ hs]
  simp only [List.length_set]
  have hlen : natLen c.length s ((e + 1) % c.length) = natLen c.length s e + 1 := by
    rw [mod_wrap e 1 c.length he (by omega)]
    unfold natLen at *
    split_ifs at * <;> omega
  rw [hlen, List.range_succ, List.map_append, List.map_singleton]
  congr 1
  · apply List.map_congr_left
    intro i hi
    rw [List.mem_range] at hi
    rw [getD_set_eq _ _ _ _ _ he, if_neg]
    rw [mod_wrap s i _ hs (by omega)]
    unfold natLen at *
    split_ifs at * <;> omega
  · rw [getD_set_eq _ _ _ _ _ he, if_pos]
    rw [mod_wrap s _ _ hs (by omega)]
    unfold natLen at *
    split_ifs at * <;> omega

theorem growCopy_spec (c : List T) (s e : Nat) (hn : 0 < c.length) :
    ∀ (k i : Nat) (acc : List T), i + k ≤ acc.length →
      ∃ acc1, growCopy (⟨c, s, e⟩ : Queue T) k (i : Int) acc = some acc1 ∧
        acc1.length = acc.length ∧
        ∀ j, acc1.getD j default =
          if i ≤ j ∧ j < i + k then c.getD ((s + j) % c.length) default
          else acc.getD j default := by
  intro k
  induction k with
  | zero =>
    intro i acc _
    refine ⟨acc, rfl, rfl, ?_⟩
    intro j
    rw [if_neg (by omega)]
  | succ k ih =>
    intro i acc hacc
    obtain ⟨acc1, h1, h2, h3⟩ := ih (i + 1) (acc.set i (c.getD ((s + i) % c.length) default))
      (by rw [List.length_set]; omega)
    refine ⟨acc1, ?_, by rw [h2, List.length_set], ?_⟩
    · unfold growCopy
      rw [at_natCast c s e i hn, Option.some_bind, setIndex_natCast _ _ _ (by omega),
        Option.some_bind]
      have hc : ((i : Int) + 1) = ((i + 1 : Nat) : Int) := by push_cast; rfl
      rw [hc]
      exact h1
    · intro j
      rw [h3 j, getD_set_eq _ _ _ _ _ (by omega)]
      by_cases hij : i = j
      · subst hij
        rw [if_neg (by omega), if_pos rfl, if_pos (by omega)]
      · rw [if_neg hij]
        by_cases hr : i + 1 ≤ j ∧ j < i + 1 + k
        · rw [if_pos hr, if_pos (by omega)]
        · rw [if_neg hr, if_neg (by omega)]

theorem grow_spec (c : List T) (s e : Nat) (hs : s < c.length) (he : e < c.length) :
    ∃ c1, Queue.grow (⟨c, s, e⟩ : Queue T) = some ⟨c1, 0, (natLen c.length s e : Nat)⟩ ∧
      c1.length = 2 * c.length ∧
      ∀ j, j < natLen c.length s e →
        c1.getD j default = c.getD ((s + j) % c.length) default := by
  have hn : 0 < c.length := by omega
  have hk := natLen_lt c.length s e hs he
  obtain ⟨c1, h1, h2, h3⟩ := growCopy_spec c s e hn (natLen c.length s e) 0
    (List.replicate (2 * c.length) default) (by rw [List.length_replicate]; omega)
  refine ⟨c1, ?_, by rw [h2, List.length_replicate], ?_⟩
  · unfold Queue.grow
    have hm : makeSlice T ((c.length : Int) * 2) =
        some (List.replicate (2 * c.length) default) := by
      unfold makeSlice
      rw [if_neg (by omega)]
      congr 2
      omega
    simp only [hm, Option.some_bind, len_natCast c s e hs, Int.toNat_ofNat]
    have h0 : ((0 : Nat) : Int) = 0 := rfl
    rw [h0] at h1
    rw [h1]
    rfl
  · intro j hj
    rw [h3 j, if_pos (by omega)]

theorem grow_contents (c c1 : List T) (s e : Nat) (hs : s < c.length) (he : e < c.length)
    (hlen : c1.length = 2 * c.length)
    (hget : ∀ j, j < natLen c.length s e →
      c1.getD j default = c.getD ((s + j) % c.length) default) :
    Queue.contents (⟨c1, ((0 : Nat) : Int), (natLen c.length s e : Nat)⟩ : Queue T) =
      Queue.contents (⟨c, s, e⟩ : Queue T) := by
  have hk := natLen_lt c.length s e hs he
  rw [contents_natCast _ _ _ (by omega), contents_natCast _ _ _ hs]
  have hl : natLen c1.length 0 (natLen c.length s e) = natLen c.length s e := by
    generalize natLen c.length s e = k
    unfold natLen
    simp
  rw [hl]
  apply List.map_congr_left
  intro i hi
  rw [List.mem_range] at hi
  rw [Nat.zero_add, Nat.mod_eq_of_lt (by omega)]
  exact hget i hi

theorem isFull_natCast (c : List T) (s e : Nat) (hs : s < c.length) :
    Queue.isFull (⟨c, s, e⟩ : Queue T) = decide (natLen c.length s e + 1 = c.length) := by
  unfold Queue.isFull
  rw [len_natCast c s e hs]
  simp only
  apply decide_eq_decide.mpr
  omega

/-- What `Enqueue` does to a well-formed queue. -/
theorem Enqueue_spec (q : Queue T) (v : T) (h : q.WF) :
    ∃ q1, q.Enqueue v = some q1 ∧ q1.WF ∧ q1.contents = q.contents ++ [v] ∧
      q1.circ.length = (if q.isFull then 2 * q.circ.length else q.circ.length) ∧
      (q.isFull = true → q1.start = 0) ∧ (q.isFull = false → q1.start = q.start) := by
  obtain ⟨c, s, e, rfl, hn, hs, he⟩ := WF_exists_nat h
  have hk := natLen_lt c.length s e hs he
  have hc : ∀ a : Nat, ((a : Int) + 1) = ((a + 1 : Nat) : Int) := by
    intro a; push_cast; rfl
  by_cases hfull : natLen c.length s e + 1 = c.length
  · have hF : Queue.isFull (⟨c, s, e⟩ : Queue T) = true := by
      rw [isFull_natCast c s e hs]; exact decide_eq_true hfull
    obtain ⟨c1, hg, hl, hget⟩ := grow_spec c s e hs he
    have hk1 : natLen c.length s e < c1.length := by omega
    refine ⟨⟨c1.set (natLen c.length s e) v, ((0 : Nat) : Int),
      (((natLen c.length s e + 1) % c1.length : Nat) : Int)⟩, ?_, ?_, ?_, ?_, ?_, ?_⟩
    · unfold Queue.Enqueue
      rw [hF, if_pos rfl, hg, Option.some_bind]
      simp only
      rw [setIndex_natCast _ _ _ hk1, Option.some_bind, List.length_set, hc,
        goMod_natCast _ _ (by omega)]
      rfl
    · apply WF_natCast
      · rw [List.length_set]; omega
      · rw [List.length_set]; exact Nat.mod_lt _ (by omega)
    · have hp := push_contents c1 0 (natLen c.length s e) v (by omega) hk1
        (by rw [natLen_zero]; omega)
      rw [hp]
      congr 1
      exact grow_contents c c1 s e hs he hl hget
    · rw [hF, if_pos rfl]
      simp [hl]
    · intro _; rfl
    · intro hcon; rw [hF] at hcon; cases hcon
  · have hF : Queue.isFull (⟨c, s, e⟩ : Queue T) = false := by
      rw [isFull_natCast c s e hs]; exact decide_eq_false hfull
    refine ⟨⟨c.set e v, s, (((e + 1) % c.length : Nat) : Int)⟩, ?_, ?_, ?_, ?_, ?_, ?_⟩
    · unfold Queue.Enqueue
      rw [hF]
      simp only [Bool.false_eq_true, if_false, Option.some_bind]
      rw [setIndex_natCast _ _ _ he, Option.some_bind, List.length_set, hc,
        goMod_natCast _ _ hn]
      rfl
    · apply WF_natCast
      · rw [List.length_set]; exact hs
      · rw [List.length_set]; exact Nat.mod_lt _ hn
    · exact push_contents c s e v hs he (by omega)
    · rw [hF]; simp
    · intro hcon; rw [hF] at hcon; cases hcon
    · intro _; rfl

/-- What `Dequeue` does to a well-formed queue. -/
theorem Dequeue_spec (q : Queue T) (h : q.WF) :
    ∃ q1, q.Dequeue = some q1 ∧ q1.WF ∧ q1.contents = q.contents.tail ∧
      q1.circ.length = q.circ.length := by
  obtain ⟨c, s, e, rfl, hn, hs, he⟩ := WF_exists_nat h
  have hk := natLen_lt c.length s e hs he
  by_cases hz : natLen c.length s e = 0
  · refine ⟨⟨c, s, e⟩, ?_, WF_natCast c s e hs he, ?_, rfl⟩
    · unfold Queue.Dequeue
      rw [len_natCast c s e hs, if_pos (by omega)]
    · rw [contents_natCast c s e hs, hz]
      rfl
  · have hc : ((s : Int) + 1) = ((s + 1 : Nat) : Int) := by push_cast; rfl
    refine ⟨⟨c.set s default, (((s + 1) % c.length : Nat) : Int), e⟩, ?_, ?_, ?_,
      List.length_set _ _ _⟩
    · unfold Queue.Dequeue
      rw [len_natCast c s e hs, if_neg (by omega)]
      simp only
      rw [setIndex_natCast _ _ _ hs, Option.some_bind, List.length_set, hc,
        goMod_natCast _ _ hn]
      rfl
    · apply WF_natCast
      · rw [List.length_set]; exact Nat.mod_lt _ hn
      · rw [List.length_set]; exact he
    · have hs1 : (s + 1) % c.length < (c.set s default).length := by
        rw [List.length_set]; exact Nat.mod_lt _ hn
      rw [contents_natCast _ _ _ hs1, contents_natCast c s e hs, List.length_set]
      have hl : natLen c.length ((s + 1) % c.length) e + 1 = natLen c.length s e := by
        rw [mod_wrap s 1 c.length hs (by unfold natLen at hz; split_ifs at hz <;> omega)]
        unfold natLen at *
        split_ifs at * <;> omega
      apply List.ext_getElem
      · simp only [List.length_map, List.length_range, List.length_tail]
        omega
      · intro i h1 h2
        simp only [List.length_map, List.length_range] at h1
        rw [List.getElem_tail]
        simp only [List.getElem_map, List.getElem_range]
        rw [getD_set_eq _ _ _ _ _ hs, if_neg]
        · congr 1
          rw [mod_wrap s 1 c.length hs (by omega), mod_wrap s (i + 1) _ hs (by omega)]
          split_ifs with ha hb hb
          · rw [mod_wrap _ i _ (by omega) (by omega)]
            split_ifs <;> omega
          · rw [mod_wrap _ i _ (by omega) (by omega)]
            split_ifs <;> omega
          · rw [mod_wrap _ i _ (by omega) (by omega)]
            split_ifs <;> omega
          · rw [mod_wrap _ i _ (by omega) (by omega)]
            split_ifs <;> omega
        · rw [mod_wrap s 1 c.length hs (by omega)]
          split_ifs with ha
          · rw [mod_wrap _ i _ (by omega) (by omega)]
            split_ifs <;> omega
          · rw [mod_wrap _ i _ (by omega) (by omega)]
            split_ifs <;> omega

/-- What `Pending` returns on a well-formed queue. -/
theorem Pending_spec (q : Queue T) (h : q.WF) :
    q.Pending = some ((q.contents.headD default, !q.contents.isEmpty), q) := by
  obtain ⟨c, s, e, rfl, hn, hs, he⟩ := WF_exists_nat h
  unfold Queue.Pending
  rw [len_natCast c s e hs, contents_natCast c s e hs]
  by_cases hz : natLen c.length s e = 0
  · rw [if_pos (by omega), hz]
    rfl
  · rw [if_neg (by omega)]
    have h0 : (0 : Int) = ((0 : Nat) : Int) := rfl
    rw [h0, at_natCast c s e 0 hn]
    obtain ⟨k, hk⟩ := Nat.exists_eq_succ_of_ne_zero hz
    rw [hk, List.range_succ_eq_map]
    simp

theorem isEmpty_eq (q : Queue T) (h : q.WF) : q.IsEmpty = q.contents.isEmpty := by
  obtain ⟨c, s, e, rfl, hn, hs, he⟩ := WF_exists_nat h
  unfold Queue.IsEmpty
  rw [len_natCast c s e hs, contents_natCast c s e hs]
  cases hk : natLen c.length s e with
  | zero => rfl
  | succ k =>
    rw [List.range_succ_eq_map]
    simp only [List.map_cons, List.isEmpty_cons, decide_eq_false_iff_not]
    omega

theorem len_eq_contents_length (q : Queue T) (h : q.WF) :
    q.len = (q.contents.length : Int) := by
  obtain ⟨c, s, e, rfl, hn, hs, he⟩ := WF_exists_nat h
  rw [contents_length, len_natCast c s e hs, Int.toNat_ofNat]

/-- Reading the buffer with the source's `at` gives the elements of `contents`. -/
theorem at_eq_contents (q : Queue T) (h : q.WF) (i : Nat) (hi : i < q.contents.length) :
    q.at (i : Int) = q.contents[i]? := by
  obtain ⟨c, s, e, rfl, hn, hs, he⟩ := WF_exists_nat h
  rw [at_natCast c s e i hn, List.getElem?_eq_getElem hi]
  congr 1
  simp only [contents_natCast c s e hs, List.getElem_map, List.getElem_range]

theorem newQueue_spec (c : Int) (hc : 1 ≤ c) :
    ∃ q : Queue T, newQueue c = some q ∧ q.WF ∧ q.contents = [] ∧
      (q.circ.length : Int) = c := by
  refine ⟨⟨List.replicate c.toNat default, 0, 0⟩, ?_, ?_, ?_, ?_⟩
  · unfold newQueue makeSlice
    rw [if_neg (by omega)]
    rfl
  · unfold Queue.WF
    simp only [List.length_replicate]
    omega
  · simp [Queue.contents, Queue.len]
  · simp only [List.length_replicate]
    omega

/-- Every sequence of calls runs without a fault on a well-formed queue and acts on its
contents as on a list. -/
theorem runOps_spec (ops : List (QOp T)) :
    ∀ q : Queue T, q.WF →
      ∃ q1, runOps ops q = some q1 ∧ q1.WF ∧ q1.contents = specRun ops q.contents ∧
        q.circ.length ≤ q1.circ.length := by
  induction ops with
  | nil =>
    intro q h
    exact ⟨q, rfl, h, rfl, le_refl _⟩
  | cons op ops ih =>
    intro q h
    cases op with
    | enq v =>
      obtain ⟨q1, h1, h2, h3, h4, _⟩ := Enqueue_spec q v h
      obtain ⟨q2, k1, k2, k3, k4⟩ := ih q1 h2
      refine ⟨q2, ?_, k2, ?_, ?_⟩
      · simp only [runOps, QOp.apply, h1, Option.some_bind, k1]
      · rw [k3, h3]; rfl
      · refine le_trans ?_ k4
        rw [h4]
        split <;> omega
    | deq =>
      obtain ⟨q1, h1, h2, h3, h4⟩ := Dequeue_spec q h
      obtain ⟨q2, k1, k2, k3, k4⟩ := ih q1 h2
      refine ⟨q2, ?_, k2, ?_, ?_⟩
      · simp only [runOps, QOp.apply, h1, Option.some_bind, k1]
      · rw [k3, h3]; rfl
      · rw [← h4]; exact k4

/-! ## Claims about the queue -/

/-- C1: for every sequence of `Enqueue` and `Dequeue` calls on a queue made by
`newQueue c` with `c ≥ 1` (`NewQueue` is `newQueue 16`), no call faults, the live
elements of the buffer are exactly the list obtained by appending at the back and
removing at the front, `Pending` returns the front of that list with `true`, or the
zero value with `false` when the list is empty, and `IsEmpty` holds exactly then. -/
theorem C1_queue_behaves_like_list (c : Int) (hc : 1 ≤ c) (ops : List (QOp T)) :
    ∃ q0 q : Queue T, newQueue c = some q0 ∧ runOps ops q0 = some q ∧
      q.contents = specRun ops [] ∧
      q.Pending = some
        ((match specRun ops [] with
          | [] => (default, false)
          | x :: _ => (x, true)), q) ∧
      q.IsEmpty = (specRun ops []).isEmpty := by
  obtain ⟨q0, h0, hwf, hnil, _⟩ := newQueue_spec (T := T) c hc
  obtain ⟨q, h1, h2, h3, _⟩ := runOps_spec ops q0 hwf
  rw [hnil] at h3
  refine ⟨q0, q, h0, h1, h3, ?_, ?_⟩
  · rw [Pending_spec q h2, h3]
    cases specRun ops [] <;> rfl
  · rw [isEmpty_eq q h2, h3]

/-- Instance of C1 at `NewQueue` with the calls of the repository's queue test. -/
theorem C1_queue_behaves_like_list_witness :
    (1 : Int) ≤ 16 ∧
    ∃ q0 q : Queue Nat, NewQueue = some q0 ∧
      runOps [.enq 1, .enq 2, .deq, .enq 3] q0 = some q ∧
      q.contents = [2, 3] ∧ q.Pending = some ((2, true), q) ∧ q.IsEmpty = false :=
  ⟨by decide, C1_queue_behaves_like_list 16 (by decide) [.enq 1, .enq 2, .deq, .enq 3]⟩

/-- C2: when a well-formed queue holds exactly `capacity - 1` elements, wherever its
start index lies, `Enqueue v` succeeds, doubles the buffer length, sets `start` to 0
and yields the former contents followed by `v`. -/
theorem C2_enqueue_grow_preserves_order (q : Queue T) (v : T) (h : q.WF)
    (hfull : q.len = (q.circ.length : Int) - 1) :
    ∃ q1, q.Enqueue v = some q1 ∧ q1.circ.length = 2 * q.circ.length ∧ q1.start = 0 ∧
      q1.contents = q.contents ++ [v] := by
  have hF : q.isFull = true := by
    unfold Queue.isFull
    exact decide_eq_true hfull
  obtain ⟨q1, h1, _, h3, h4, h5, _⟩ := Enqueue_spec q v h
  rw [hF, if_pos rfl] at h4
  exact ⟨q1, h1, h4, h5 hF, h3⟩

/-- Instance of C2 on a full queue whose contents wrap around the end of the buffer. -/
theorem C2_enqueue_grow_preserves_order_witness :
    Queue.WF (⟨[5, 6, 0, 4], 3, 2⟩ : Queue Nat) ∧
    Queue.len (⟨[5, 6, 0, 4], 3, 2⟩ : Queue Nat) = 3 ∧
    ∃ q1, Queue.Enqueue (⟨[5, 6, 0, 4], 3, 2⟩ : Queue Nat) 7 = some q1 ∧
      q1.circ.length = 8 ∧ q1.start = 0 ∧ q1.contents = [4, 5, 6, 7] :=
  ⟨by decide, by decide,
    C2_enqueue_grow_preserves_order ⟨[5, 6, 0, 4], 3, 2⟩ 7 (by decide) (by decide)⟩

/-- C3: in every state reached from `NewQueue` by `Enqueue` and `Dequeue` calls the
buffer is non-empty (so the modulus is not zero) and `end` is a valid index;
`Enqueue` returns a queue, which is not empty and holds one element more. -/
theorem C3_enqueue_never_faults (ops : List (QOp T)) (v : T) :
    ∃ q0 q q1 : Queue T, NewQueue = some q0 ∧ runOps ops q0 = some q ∧
      q.circ.length ≠ 0 ∧ 0 ≤ q.end_ ∧ q.end_ < (q.circ.length : Int) ∧
      q.Enqueue v = some q1 ∧
      q1.circ.length ≠ 0 ∧ q1.IsEmpty = false ∧ q1.len = q.len + 1 := by
  obtain ⟨q0, h0, hwf, _, _⟩ := newQueue_spec (T := T) 16 (by decide)
  obtain ⟨q, h1, h2, _, _⟩ := runOps_spec ops q0 hwf
  obtain ⟨q1, k1, k2, k3, _, _, _⟩ := Enqueue_spec q v h2
  have hl : q1.len = q.len + 1 := by
    rw [len_eq_contents_length q1 k2, len_eq_contents_length q h2, k3]
    simp
  have hq := h2
  obtain ⟨a0, a1, a2, a3, a4⟩ := hq
  refine ⟨q0, q, q1, h0, h1, by omega, a3, a4, k1, ?_, ?_, hl⟩
  · have := k2.1
    omega
  · rw [isEmpty_eq q1 k2, k3]
    cases q.contents <;> rfl

/-- C4: on a queue whose `len()` is 0, `Dequeue` returns without a fault and leaves
buffer, `start` and `end` as they were; so any number of `Dequeue` calls leaves it
unchanged, hence empty. -/
theorem C4_dequeue_empty_noop (q : Queue T) (h : q.IsEmpty = true) :
    q.Dequeue = some q ∧
      ∀ n : Nat, runOps (List.replicate n QOp.deq) q = some q := by
  have hz : q.len = 0 := by
    unfold Queue.IsEmpty at h
    exact of_decide_eq_true h
  have hd : q.Dequeue = some q := by
    unfold Queue.Dequeue
    rw [if_pos hz]
  refine ⟨hd, ?_⟩
  intro n
  induction n with
  | zero => rfl
  | succ n ih =>
    simp only [List.replicate_succ, runOps, QOp.apply, hd, Option.some_bind, ih]

/-- Instance of C4 on the queue the repository's test ends with. -/
theorem C4_dequeue_empty_noop_witness :
    Queue.IsEmpty (⟨[5, 6, 0, 0], 2, 2⟩ : Queue Nat) = true ∧
    Queue.Dequeue (⟨[5, 6, 0, 0], 2, 2⟩ : Queue Nat) = some ⟨[5, 6, 0, 0], 2, 2⟩ ∧
    ∀ n : Nat, runOps (List.replicate n QOp.deq) (⟨[5, 6, 0, 0], 2, 2⟩ : Queue Nat) =
      some ⟨[5, 6, 0, 0], 2, 2⟩ :=
  ⟨by decide, C4_dequeue_empty_noop ⟨[5, 6, 0, 0], 2, 2⟩ (by decide)⟩

/-- C5: in every state `q` reached from `NewQueue`, `Pending` returns the head element
(the value `at(0)`, the oldest element not yet dequeued) with `true` when `q` is not
empty and the zero value with `false` when it is, the queue it leaves is `q` itself,
and `PendingOrZero` returns the first component of that result. -/
theorem C5_pending_returns_head (ops : List (QOp T)) :
    ∃ q0 q : Queue T, NewQueue = some q0 ∧ runOps ops q0 = some q ∧
      (q.IsEmpty = true →
        q.Pending = some ((default, false), q) ∧ q.PendingOrZero = some (default, q)) ∧
      (q.IsEmpty = false →
        ∃ x, q.at 0 = some x ∧ (specRun ops []).head? = some x ∧
          q.Pending = some ((x, true), q) ∧ q.PendingOrZero = some (x, q)) := by
  obtain ⟨q0, h0, hwf, hnil, _⟩ := newQueue_spec (T := T) 16 (by decide)
  obtain ⟨q, h1, h2, h3, _⟩ := runOps_spec ops q0 hwf
  rw [hnil] at h3
  have hp := Pending_spec q h2
  have he := isEmpty_eq q h2
  refine ⟨q0, q, h0, h1, ?_, ?_⟩
  · intro hE
    rw [hE] at he
    have hc : q.contents = [] := List.isEmpty_iff.mp he.symm
    rw [hc] at hp
    refine ⟨hp, ?_⟩
    unfold Queue.PendingOrZero
    rw [hp]
    rfl
  · intro hE
    rw [hE] at he
    cases hc : q.contents with
    | nil => rw [hc] at he; cases he
    | cons x rest =>
      rw [hc] at hp
      have hat := at_eq_contents q h2 0 (by rw [hc]; simp)
      simp only [hc, List.getElem?_cons_zero] at hat
      refine ⟨x, hat, ?_, hp, ?_⟩
      · rw [← h3, hc]; rfl
      · unfold Queue.PendingOrZero
        rw [hp]
        rfl

/-- C6: `NewQueueWithCapacity` passes `min(cap, 16)` to `newQueue`, so for `cap = 4` the
buffer has length 4, below the documented minimum of 16; for `cap = 100` it has
length 16, and for `cap = -1` the allocation faults. -/
theorem C6_NewQueueWithCapacity_below_minimum :
    (∃ q : Queue Nat, NewQueueWithCapacity 4 = some q ∧ q.circ.length = 4 ∧
      ¬ 16 ≤ q.circ.length) ∧
    (∃ q : Queue Nat, NewQueueWithCapacity 100 = some q ∧ q.circ.length = 16) ∧
    (NewQueueWithCapacity (-1) : Option (Queue Nat)) = none := by
  refine ⟨⟨⟨List.replicate 4 0, 0, 0⟩, by decide, by decide, by decide⟩,
    ⟨⟨List.replicate 16 0, 0, 0⟩, by decide, by decide⟩, by decide⟩

/-- C7: on the zero-value queue `IsEmpty`, `Pending` and `Dequeue` run and report an
empty queue, but `Enqueue v` faults: `isFull` compares 0 with -1, no growth takes
place, and the write `q.circ[0] = v` is out of range of the nil buffer. -/
theorem C7_zero_value_enqueue_faults (v : T) :
    (zeroQueue T).IsEmpty = true ∧
    (zeroQueue T).Pending = some ((default, false), zeroQueue T) ∧
    (zeroQueue T).Dequeue = some (zeroQueue T) ∧
    (zeroQueue T).isFull = false ∧
    (zeroQueue T).Enqueue v = none := by
  have hF : (zeroQueue T).isFull = false := rfl
  refine ⟨rfl, rfl, rfl, hF, ?_⟩
  unfold Queue.Enqueue
  rw [hF]
  rfl

/-! ## One subscription: the transition system -/

theorem PendingOrZero_spec (q : Queue T) (h : q.WF) :
    q.PendingOrZero = some (q.contents.headD default, q) := by
  unfold Queue.PendingOrZero
  rw [Pending_spec q h]
  rfl

theorem init_spec :
    ∃ s : SubSys T, SubSys.init = some s ∧ s.pump.pending.WF ∧
      s.pump.pending.contents = [] ∧ s.relay = [] ∧ s.received = [] ∧
      s.published = [] ∧ s.pump.dstSet = false ∧ s.pump.running = true ∧
      s.ctxDone = false ∧ s.stopClosed = false ∧ s.closes = 0 := by
  obtain ⟨q, h0, hwf, hnil, _⟩ := newQueue_spec (T := T) 16 (by decide)
  refine ⟨(⟨[], false, false, ⟨false, q, true⟩, 0, [], []⟩ : SubSys T),
    ?_, hwf, hnil, rfl, rfl, rfl, rfl, rfl, rfl, rfl, rfl⟩
  unfold SubSys.init NewQueue
  rw [h0]
  rfl

/-- The context, once done, stays done; the cancelled handoff needs it done. -/
theorem step_ctx (f : T → Bool) (s s1 : SubSys T) (a : Act T)
    (h : step f s a = some s1) (hc : s1.ctxDone = false) :
    s.ctxDone = false ∧ ∀ m, a ≠ .publishCtxDone m := by
  cases a with
  | publish m =>
    simp only [step] at h
    split_ifs at h <;> cases h <;> exact ⟨hc, fun _ hh => by cases hh⟩
  | publishCtxDone m =>
    simp only [step] at h
    split_ifs at h with h1 h2
    cases h
    simp only [Bool.and_eq_true] at h2
    rw [h2.2] at hc
    cases hc
  | cancel =>
    simp only [step] at h
    cases h
    cases hc
  | unsubscribe =>
    simp only [step] at h
    split_ifs at h
    cases h
    exact ⟨hc, fun _ hh => by cases hh⟩
  | pumpRecv =>
    simp only [step] at h
    split_ifs at h
    cases hr : s.relay with
    | nil => rw [hr] at h; cases h
    | cons msg rest =>
      rw [hr] at h
      simp only at h
      cases hq : s.pump.pending.Enqueue msg with
      | none => rw [hq] at h; cases h
      | some q =>
        rw [hq] at h
        cases h
        exact ⟨hc, fun _ hh => by cases hh⟩
  | pumpSend =>
    simp only [step] at h
    split_ifs at h
    cases hp : s.pump.pending.PendingOrZero with
    | none => rw [hp] at h; cases h
    | some r =>
      rw [hp] at h
      simp only [Option.some_bind] at h
      cases hq : r.2.Dequeue with
      | none => rw [hq] at h; cases h
      | some q =>
        rw [hq] at h
        cases h
        exact ⟨hc, fun _ hh => by cases hh⟩
  | pumpStop =>
    simp only [step] at h
    split_ifs at h
    cases h
    exact ⟨hc, fun _ hh => by cases hh⟩

theorem runActs_ctx (f : T → Bool) (acts : List (Act T)) :
    ∀ s s1 : SubSys T, runActs f acts s = some s1 → s1.ctxDone = false →
      s.ctxDone = false := by
  induction acts with
  | nil =>
    intro s s1 h hc
    cases h
    exact hc
  | cons a acts ih =>
    intro s s1 h hc
    simp only [runActs] at h
    cases hs : step f s a with
    | none => rw [hs] at h; cases h
    | some s2 =>
      rw [hs, Option.some_bind] at h
      exact (step_ctx f s s2 a hs (ih s2 s1 h hc)).1

theorem runActs_append (f : T → Bool) (as bs : List (Act T)) :
    ∀ s : SubSys T, runActs f (as ++ bs) s = (runActs f as s).bind (runActs f bs) := by
  induction as with
  | nil => intro s; rfl
  | cons a as ih =>
    intro s
    simp only [List.cons_append, runActs]
    cases step f s a with
    | none => rfl
    | some s2 => exact ih s2

/-! ## The registry -/

theorem mapGet_mapSet {α : Type} (l : List (Nat × α)) (k k1 : Nat) (v : α) :
    mapGet (some (mapSet l k v)) k1 = if k1 = k then some v else mapGet (some l) k1 := by
  unfold mapGet mapSet
  by_cases h : k1 = k
  · subst h
    simp
  · rw [if_neg h]
    have hk : (k == k1) = false := by simpa using fun hh => h hh.symm
    simp only [List.find?_cons, hk]
    congr 1
    induction l with
    | nil => rfl
    | cons p l ih =>
      by_cases hp : p.1 = k
      · have h1 : (p.1 != k) = false := by simp [hp]
        have h2 : (p.1 == k1) = false := by simpa [hp] using fun hh => h hh.symm
        simp only [List.filter_cons, h1, List.find?_cons, h2]
        exact ih
      · have h1 : (p.1 != k) = true := by simp [hp]
        simp only [List.filter_cons, h1, if_true, List.find?_cons]
        cases hq : (p.1 == k1)
        · exact ih
        · rfl

theorem mapGet_mapDelete {α : Type} (m : Option (List (Nat × α))) (k k1 : Nat) :
    mapGet (mapDelete m k) k1 = if k1 = k then none else mapGet m k1 := by
  cases m with
  | none => simp [mapGet, mapDelete]
  | some l =>
    unfold mapGet mapDelete
    simp only [Option.map_some']
    induction l with
    | nil => simp
    | cons p l ih =>
      by_cases hp : p.1 = k
      · have h1 : (p.1 != k) = false := by simp [hp]
        simp only [List.filter_cons, h1, List.find?_cons]
        by_cases h : k1 = k
        · rw [if_pos h] at ih ⊢
          exact ih
        · rw [if_neg h] at ih ⊢
          have h2 : (p.1 == k1) = false := by simpa [hp] using fun hh => h hh.symm
          simp only [h2]
          exact ih
      · have h1 : (p.1 != k) = true := by simp [hp]
        simp only [List.filter_cons, h1, if_true, List.find?_cons]
        by_cases h : k1 = k
        · rw [if_pos h] at ih ⊢
          have h2 : (p.1 == k1) = false := by simpa [h] using hp
          simp only [h2]
          exact ih
        · rw [if_neg h] at ih ⊢
          cases hq : (p.1 == k1)
          · exact ih
          · rfl

/-- `Subscribe` on a registered endpoint panics in the state it was called in. -/
theorem Subscribe_registered (s : Subscriber T) (ch : Nat) (filter : Option (T → Bool))
    (sub : pipeSub T) (h : mapGet s.subs ch = some sub) :
    s.Subscribe ch filter = .panicked "twipi: channel already subscribed" s := by
  rcases s with ⟨subs, n, cl, ps⟩
  cases subs with
  | none => cases h
  | some l =>
    simp only at h
    simp only [Subscriber.Subscribe, h]

/-- `Subscribe` on an unregistered endpoint returns the state with the new entry. -/
theorem Subscribe_unregistered (s : Subscriber T) (ch : Nat) (filter : Option (T → Bool))
    (h : mapGet s.subs ch = none) :
    s.Subscribe ch filter = .done
      ⟨some (mapSet (s.subs.getD []) ch
          ⟨(match filter with
            | none => fun _ => true
            | some f => f), s.nextChan, s.nextChan + 1⟩),
        s.nextChan + 2, s.closed, ⟨ch, s.nextChan, s.nextChan + 1⟩ :: s.pumps⟩ := by
  rcases s with ⟨subs, n, cl, ps⟩
  cases subs with
  | none => rfl
  | some l =>
    simp only at h
    simp only [Subscriber.Subscribe, h, Option.getD_some]

theorem mapGet_getD {α : Type} (m : Option (List (Nat × α))) (k : Nat) :
    mapGet (some (m.getD [])) k = mapGet m k := by
  cases m <;> rfl

theorem Subscribe_inv (s s1 : Subscriber T) (ch : Nat) (filter : Option (T → Bool))
    (hinv : RegInv s) (h : s.Subscribe ch filter = .done s1) : RegInv s1 := by
  obtain ⟨i1, i2, i3, i4⟩ := hinv
  cases hg : mapGet s.subs ch with
  | some sub => rw [Subscribe_registered s ch filter sub hg] at h; cases h
  | none =>
    rw [Subscribe_unregistered s ch filter hg] at h
    cases h
    refine ⟨?_, ?_, ?_, ?_⟩
    · intro k sub hk
      simp only [mapGet_mapSet, mapGet_getD] at hk
      split_ifs at hk with hkc
      · cases hk
        refine ⟨by simp, by simp, ?_⟩
        intro hmem
        have := i3 _ hmem
        simp only at this
        omega
      · obtain ⟨a, b, c⟩ := i1 k sub hk
        exact ⟨by simp only; omega, by simp only; omega, c⟩
    · intro k1 k2 sub1 sub2 h1 h2 he
      simp only [mapGet_mapSet, mapGet_getD] at h1 h2
      split_ifs at h1 with c1 <;> split_ifs at h2 with c2
      · rw [c1, c2]
      · cases h1
        have := (i1 k2 sub2 h2).1
        simp only at he
        omega
      · cases h2
        have := (i1 k1 sub1 h1).1
        simp only at he
        omega
      · exact i2 k1 k2 sub1 sub2 h1 h2 he
    · intro c hc
      have := i3 c hc
      simp only at this ⊢
      omega
    · intro p hp
      simp only [List.mem_cons] at hp
      rcases hp with hp | hp
      · subst hp
        simp
      · have := i4 p hp
        simp only at this ⊢
        omega

/-- On a state satisfying the invariant `unsub` does not panic. -/
theorem unsub_registered (s : Subscriber T) (ch : Nat) (sub : pipeSub T) (hinv : RegInv s)
    (h : mapGet s.subs ch = some sub) :
    s.unsub ch = .done { s with closed := sub.stop :: s.closed, subs := mapDelete s.subs ch } := by
  have hopen := (hinv.1 ch sub h).2.2
  simp only [Subscriber.unsub, h, if_neg hopen]

theorem unsub_unregistered (s : Subscriber T) (ch : Nat) (h : mapGet s.subs ch = none) :
    s.unsub ch = .done s := by
  simp only [Subscriber.unsub, h]

theorem unsub_inv (s s1 : Subscriber T) (ch : Nat) (hinv : RegInv s)
    (h : s.unsub ch = .done s1) : RegInv s1 := by
  cases hg : mapGet s.subs ch with
  | none =>
    rw [unsub_unregistered s ch hg] at h
    cases h
    exact hinv
  | some sub =>
    rw [unsub_registered s ch sub hinv hg] at h
    cases h
    obtain ⟨i1, i2, i3, i4⟩ := hinv
    refine ⟨?_, ?_, ?_, i4⟩
    · intro k sub1 hk
      simp only [mapGet_mapDelete] at hk
      split_ifs at hk with hkc
      obtain ⟨a, b, c⟩ := i1 k sub1 hk
      refine ⟨a, b, ?_⟩
      simp only [List.mem_cons, not_or]
      exact ⟨fun he => hkc (i2 k ch sub1 sub hk hg he), c⟩
    · intro k1 k2 sub1 sub2 h1 h2 he
      simp only [mapGet_mapDelete] at h1 h2
      split_ifs at h1
      split_ifs at h2
      exact i2 k1 k2 sub1 sub2 h1 h2 he
    · intro c hc
      simp only [List.mem_cons] at hc
      rcases hc with hc | hc
      · rw [hc]; exact (i1 ch sub hg).1
      · exact i3 c hc

theorem NewSubscriber_inv : RegInv (NewSubscriber T) := by
  refine ⟨?_, ?_, ?_, ?_⟩
  · intro k sub h; cases h
  · intro k1 k2 sub1 sub2 h; cases h
  · intro c hc; cases hc
  · intro p hp; cases hp

theorem runCalls_inv (calls : List (Call T)) :
    ∀ s s1 : Subscriber T, RegInv s → runCalls calls s = .done s1 → RegInv s1 := by
  induction calls with
  | nil =>
    intro s s1 hinv h
    cases h
    exact hinv
  | cons c cs ih =>
    intro s s1 hinv h
    simp only [runCalls] at h
    cases hc : c.apply s with
    | panicked msg s2 => rw [hc] at h; cases h
    | done s2 =>
      rw [hc] at h
      refine ih s2 s1 ?_ h
      cases c with
      | subscribe ch filter => exact Subscribe_inv s s2 ch filter hinv hc
      | unsubscribe ch => exact unsub_inv s s2 ch hinv hc

/-! ## Claims about registration -/

/-- C9: in every state of the registry reached from `NewSubscriber` by `Subscribe` and
`Unsubscribe` calls, `Subscribe ch filter` panics exactly when `ch` is registered;
the panic leaves the whole state, registry and started goroutines, as it was;
otherwise the call returns, `ch` maps to a subscription with the given filter and
newly made `queue` and `stop` channels (open, and held by no other entry), one
goroutine for it is started, and every other entry is as before. -/
theorem C9_subscribe_panics_iff_registered (calls : List (Call T)) (s : Subscriber T)
    (ch : Nat) (filter : Option (T → Bool))
    (hreach : runCalls calls (NewSubscriber T) = .done s) :
    ((∃ msg s1, s.Subscribe ch filter = .panicked msg s1) ↔
      (mapGet s.subs ch).isSome = true) ∧
    (∀ msg s1, s.Subscribe ch filter = .panicked msg s1 →
      s1 = s ∧ s1.subs = s.subs ∧ s1.pumps = s.pumps) ∧
    ((mapGet s.subs ch).isSome = false → ∃ s1, s.Subscribe ch filter = .done s1) ∧
    (∀ s1, s.Subscribe ch filter = .done s1 →
      ∃ sub, mapGet s1.subs ch = some sub ∧
        (∀ m, sub.filter m = match filter with
          | none => true
          | some f => f m) ∧
        sub.stop ∉ s1.closed ∧
        (∀ k sub0, mapGet s.subs k = some sub0 →
          sub0.stop ≠ sub.stop ∧ sub0.queue ≠ sub.queue) ∧
        s1.pumps = ⟨ch, sub.queue, sub.stop⟩ :: s.pumps ∧
        s1.closed = s.closed ∧
        ∀ k, k ≠ ch → mapGet s1.subs k = mapGet s.subs k) := by
  have hinv : RegInv s := runCalls_inv calls _ s NewSubscriber_inv hreach
  cases hg : mapGet s.subs ch with
  | some sub =>
    have hp := Subscribe_registered s ch filter sub hg
    refine ⟨⟨fun _ => rfl, fun _ => ⟨_, _, hp⟩⟩, ?_, ?_, ?_⟩
    · intro msg s1 h
      rw [hp] at h
      cases h
      exact ⟨rfl, rfl, rfl⟩
    · intro h; cases h
    · intro s1 h
      rw [hp] at h
      cases h
  | none =>
    have hd := Subscribe_unregistered s ch filter hg
    refine ⟨⟨?_, fun h => by cases h⟩, ?_, fun _ => ⟨_, hd⟩, ?_⟩
    · rintro ⟨msg, s1, h⟩
      rw [hd] at h
      cases h
    · intro msg s1 h
      rw [hd] at h
      cases h
    · intro s1 h
      have hinv1 := Subscribe_inv s s1 ch filter hinv h
      rw [hd] at h
      cases h
      refine ⟨_, (mapGet_mapSet _ _ _ _).trans (if_pos rfl), ?_, ?_, ?_, rfl, rfl, ?_⟩
      · intro m
        cases filter <;> rfl
      · intro hmem
        have := hinv.2.2.1 _ hmem
        simp only at this
        omega
      · intro k sub0 hk
        obtain ⟨a, b, _⟩ := hinv.1 k sub0 hk
        simp only
        omega
      · intro k hk
        simp only [mapGet_mapSet, if_neg hk, mapGet_getD]

/-- Instance of C9: with endpoints 3 and 5 subscribed and 3 unsubscribed again,
subscribing 5 panics and leaves the state, subscribing 3 returns. -/
theorem C9_subscribe_panics_iff_registered_witness :
    ∃ s : Subscriber Nat,
      runCalls [.subscribe 3 none, .subscribe 5 (some fun m : Nat => m % 2 == 0), .unsubscribe 3]
        (NewSubscriber Nat) = .done s ∧
      (mapGet s.subs 5).isSome = true ∧ (mapGet s.subs 3).isSome = false ∧
      (∃ msg s1, s.Subscribe 5 none = .panicked msg s1) ∧
      (∃ s1, s.Subscribe 3 none = .done s1) := by
  obtain ⟨s, hs⟩ : ∃ s : Subscriber Nat,
      runCalls [.subscribe 3 none, .subscribe 5 (some fun m : Nat => m % 2 == 0), .unsubscribe 3]
        (NewSubscriber Nat) = .done s := ⟨_, rfl⟩
  have h5 : (mapGet s.subs 5).isSome = true := by cases hs; rfl
  have h3 : (mapGet s.subs 3).isSome = false := by cases hs; rfl
  exact ⟨s, hs, h5, h3,
    (C9_subscribe_panics_iff_registered _ s 5 none hs).1.mpr h5,
    (C9_subscribe_panics_iff_registered _ s 3 none hs).2.2.1 h3⟩

/-- C10: in every state of the registry reached from `NewSubscriber`, `Unsubscribe ch`
returns without a panic; when `ch` is not registered the state is returned as it
was, so nothing is closed; a second `Unsubscribe ch` returns the state the first
one produced; and for every other endpoint the entry, and whether its stop channel
is closed, are as before. -/
theorem C10_unsubscribe_noop_idempotent (calls : List (Call T)) (s : Subscriber T)
    (ch : Nat) (hreach : runCalls calls (NewSubscriber T) = .done s) :
    ∃ s1, s.Unsubscribe ch = .done s1 ∧
      (mapGet s.subs ch = none → s1 = s ∧ s1.subs = s.subs ∧ s1.closed = s.closed) ∧
      mapGet s1.subs ch = none ∧
      s1.Unsubscribe ch = .done s1 ∧
      (∀ k, k ≠ ch →
        mapGet s1.subs k = mapGet s.subs k ∧ s1.stopClosed k = s.stopClosed k) := by
  have hinv : RegInv s := runCalls_inv calls _ s NewSubscriber_inv hreach
  unfold Subscriber.Unsubscribe
  cases hg : mapGet s.subs ch with
  | none =>
    have hd := unsub_unregistered s ch hg
    exact ⟨s, hd, fun _ => ⟨rfl, rfl, rfl⟩, hg, hd, fun _ _ => ⟨rfl, rfl⟩⟩
  | some sub =>
    have hd := unsub_registered s ch sub hinv hg
    refine ⟨_, hd, (fun h => by cases h), ?_, ?_, ?_⟩
    · simp only [mapGet_mapDelete, if_pos]
    · apply unsub_unregistered
      simp only [mapGet_mapDelete, if_pos]
    · intro k hk
      have hm : mapGet (mapDelete s.subs ch) k = mapGet s.subs k := by
        simp only [mapGet_mapDelete, if_neg hk]
      refine ⟨hm, ?_⟩
      unfold Subscriber.stopClosed
      simp only [hm]
      cases hk1 : mapGet s.subs k with
      | none => rfl
      | some sub1 =>
        have hne : sub1.stop ≠ sub.stop := fun he => hk (hinv.2.1 k ch sub1 sub hk1 hg he)
        simp only [Option.map_some', List.mem_cons, hne, false_or]

/-- Instance of C10: with endpoints 3 and 5 subscribed, unsubscribing 3 twice is
unsubscribing it once, and endpoint 5 keeps its entry and its open stop channel. -/
theorem C10_unsubscribe_noop_idempotent_witness :
    ∃ s s1 : Subscriber Nat,
      runCalls [.subscribe 3 none, .subscribe 5 none] (NewSubscriber Nat) = .done s ∧
      s.Unsubscribe 3 = .done s1 ∧ s1.Unsubscribe 3 = .done s1 ∧
      (mapGet s.subs 3).isSome = true ∧ mapGet s1.subs 3 = none ∧
      s1.stopClosed 5 = some false := by
  obtain ⟨s, hs⟩ : ∃ s : Subscriber Nat,
      runCalls [.subscribe 3 none, .subscribe 5 none] (NewSubscriber Nat) = .done s :=
    ⟨_, rfl⟩
  obtain ⟨s1, h1, _, h3, h4, h5⟩ := C10_unsubscribe_noop_idempotent _ s 3 hs
  have h6 : (mapGet s.subs 3).isSome = true := by cases hs; rfl
  have h7 : s.stopClosed 5 = some false := by cases hs; rfl
  exact ⟨s, s1, hs, h1, h4, h6, h3, by rw [(h5 5 (by decide)).2, h7]⟩

/-! ## Capacity of the queue -/

theorem len_bounds (q : Queue T) (h : q.WF) :
    0 ≤ q.len ∧ q.len ≤ (q.circ.length : Int) - 1 := by
  obtain ⟨c, s, e, rfl, hn, hs, he⟩ := WF_exists_nat h
  have hk := natLen_lt c.length s e hs he
  rw [len_natCast c s e hs]
  simp only
  omega

theorem isFull_iff (q : Queue T) : q.isFull = true ↔ q.len = (q.circ.length : Int) - 1 := by
  unfold Queue.isFull
  exact decide_eq_true_iff

/-- The capacity stays of the form `16 * 2 ^ k` along every sequence of calls. -/
theorem runOps_cap (ops : List (QOp T)) :
    ∀ q : Queue T, q.WF → (∃ k : Nat, q.circ.length = 16 * 2 ^ k) →
      ∃ q1, runOps ops q = some q1 ∧ q1.WF ∧ ∃ k : Nat, q1.circ.length = 16 * 2 ^ k := by
  induction ops with
  | nil =>
    intro q h hk
    exact ⟨q, rfl, h, hk⟩
  | cons op ops ih =>
    intro q h hk
    obtain ⟨k, hk⟩ := hk
    cases op with
    | enq v =>
      obtain ⟨q1, h1, h2, _, h4, _⟩ := Enqueue_spec q v h
      have hcap : ∃ k1 : Nat, q1.circ.length = 16 * 2 ^ k1 := by
        rw [h4]
        split
        · exact ⟨k + 1, by rw [hk, pow_succ]; ring⟩
        · exact ⟨k, hk⟩
      obtain ⟨q2, k1, k2, k3⟩ := ih q1 h2 hcap
      exact ⟨q2, by simp only [runOps, QOp.apply, h1, Option.some_bind, k1], k2, k3⟩
    | deq =>
      obtain ⟨q1, h1, h2, _, h4⟩ := Dequeue_spec q h
      obtain ⟨q2, k1, k2, k3⟩ := ih q1 h2 ⟨k, by rw [h4, hk]⟩
      exact ⟨q2, by simp only [runOps, QOp.apply, h1, Option.some_bind, k1], k2, k3⟩

/-- C20: in every state reached from `NewQueue` by `Enqueue` and `Dequeue` calls the
buffer length is `16 * 2 ^ k` for some `k` and the queue holds between 0 and
`capacity - 1` elements; `Enqueue` returns a queue whose buffer is twice as long
exactly when the queue held `capacity - 1` elements and as long as before
otherwise, wherever `start` lies; `Dequeue` keeps the buffer length; and along any
further calls the buffer length never goes down. -/
theorem C20_capacity_doubles_when_full (ops : List (QOp T)) (v : T) :
    ∃ q0 q : Queue T, NewQueue = some q0 ∧ runOps ops q0 = some q ∧
      (∃ k : Nat, q.circ.length = 16 * 2 ^ k) ∧
      0 ≤ q.len ∧ q.len ≤ (q.circ.length : Int) - 1 ∧
      (∃ q1, q.Enqueue v = some q1 ∧
        (q.len = (q.circ.length : Int) - 1 → q1.circ.length = 2 * q.circ.length) ∧
        (q.len ≠ (q.circ.length : Int) - 1 → q1.circ.length = q.circ.length)) ∧
      (∃ q1, q.Dequeue = some q1 ∧ q1.circ.length = q.circ.length) ∧
      (∀ ops2 : List (QOp T), ∃ q2, runOps ops2 q = some q2 ∧
        q.circ.length ≤ q2.circ.length) := by
  obtain ⟨q0, h0, hwf, _, hlen⟩ := newQueue_spec (T := T) 16 (by decide)
  have hcap0 : ∃ k : Nat, q0.circ.length = 16 * 2 ^ k := ⟨0, by simp; omega⟩
  obtain ⟨q, h1, h2, h3⟩ := runOps_cap ops q0 hwf hcap0
  obtain ⟨hl0, hl1⟩ := len_bounds q h2
  obtain ⟨q1, e1, _, _, e4, _⟩ := Enqueue_spec q v h2
  obtain ⟨q3, d1, _, _, d4⟩ := Dequeue_spec q h2
  refine ⟨q0, q, h0, h1, h3, hl0, hl1, ⟨q1, e1, ?_, ?_⟩, ⟨q3, d1, d4⟩, ?_⟩
  · intro hf
    rw [e4, if_pos ((isFull_iff q).mpr hf)]
  · intro hf
    rw [e4, if_neg (fun hh => hf ((isFull_iff q).mp hh))]
  · intro ops2
    obtain ⟨q2, r1, _, _, r4⟩ := runOps_spec ops2 q h2
    exact ⟨q2, r1, r4⟩

/-! ## The goroutine of one subscription -/

/-- Effect of `case msg := <-queue`. -/
theorem step_recv_effect (f : T → Bool) (s s1 : SubSys T)
    (h : step f s .pumpRecv = some s1) (hwf : s.pump.pending.WF) :
    ∃ msg rest, s.relay = msg :: rest ∧ s1.relay = rest ∧ s1.pump.pending.WF ∧
      s1.pump.pending.contents = s.pump.pending.contents ++ [msg] ∧
      s1.pump.dstSet = true ∧ s1.received = s.received ∧
      s1.pump.running = s.pump.running ∧ s1.stopClosed = s.stopClosed ∧
      s.pump.running = true := by
  simp only [step] at h
  split_ifs at h with hr
  simp only [Bool.not_eq_true', Bool.not_eq_false] at hr
  cases hrel : s.relay with
  | nil => rw [hrel] at h; cases h
  | cons msg rest =>
    rw [hrel] at h
    obtain ⟨q, k1, k2, k3, _⟩ := Enqueue_spec s.pump.pending msg hwf
    simp only [k1, Option.map_some'] at h
    cases h
    exact ⟨msg, rest, rfl, rfl, k2, k3, rfl, rfl, rfl, rfl, hr⟩

/-- Effect of `case dst <- pending.PendingOrZero()`. -/
theorem step_send_effect (f : T → Bool) (s s1 : SubSys T)
    (h : step f s .pumpSend = some s1) (hwf : s.pump.pending.WF) :
    s.pump.dstSet = true ∧ s.pump.running = true ∧ s1.relay = s.relay ∧
      s1.pump.pending.WF ∧
      s1.pump.pending.contents = s.pump.pending.contents.tail ∧
      s1.received = s.received ++ [s.pump.pending.contents.headD default] ∧
      s1.pump.dstSet = (if s1.pump.pending.IsEmpty then false else true) ∧
      s1.pump.running = s.pump.running ∧ s1.stopClosed = s.stopClosed := by
  simp only [step] at h
  split_ifs at h with h1
  simp only [Bool.or_eq_true, Bool.not_eq_true', not_or, Bool.not_eq_false] at h1
  obtain ⟨q, k1, k2, k3, _⟩ := Dequeue_spec s.pump.pending hwf
  simp only [PendingOrZero_spec _ hwf, Option.some_bind, k1, Option.map_some'] at h
  cases h
  refine ⟨h1.2, h1.1, rfl, k2, k3, rfl, ?_, rfl, rfl⟩
  simp only [h1.2]

/-- Effect of the branches outside the goroutine and of `case <-stop`. -/
theorem step_other_effect (f : T → Bool) (s s1 : SubSys T) (a : Act T)
    (h : step f s a = some s1) (h1 : a ≠ .pumpRecv) (h2 : a ≠ .pumpSend) :
    s1.pump.pending = s.pump.pending ∧ s1.pump.dstSet = s.pump.dstSet ∧
      s1.received = s.received ∧
      (s1.relay = s.relay ∨ ∃ m, s.relay = [] ∧ s1.relay = [m]) ∧
      (s1.stopClosed = s.stopClosed ∧ s1.pump.running = s.pump.running ∨
        s1.stopClosed = true) := by
  cases a with
  | publish m =>
    simp only [step] at h
    split_ifs at h with c1 c2 c3
    · cases h
      exact ⟨rfl, rfl, rfl, Or.inl rfl, Or.inl ⟨rfl, rfl⟩⟩
    · cases h
      refine ⟨rfl, rfl, rfl, Or.inr ⟨m, ?_, ?_⟩, Or.inl ⟨rfl, rfl⟩⟩
      · exact List.length_eq_zero.mp (by omega)
      · have : s.relay = [] := List.length_eq_zero.mp (by omega)
        simp [this]
  | publishCtxDone m =>
    simp only [step] at h
    split_ifs at h
    cases h
    exact ⟨rfl, rfl, rfl, Or.inl rfl, Or.inl ⟨rfl, rfl⟩⟩
  | cancel =>
    simp only [step] at h
    cases h
    exact ⟨rfl, rfl, rfl, Or.inl rfl, Or.inl ⟨rfl, rfl⟩⟩
  | unsubscribe =>
    simp only [step] at h
    split_ifs at h
    cases h
    exact ⟨rfl, rfl, rfl, Or.inl rfl, Or.inr rfl⟩
  | pumpRecv => exact absurd rfl h1
  | pumpSend => exact absurd rfl h2
  | pumpStop =>
    simp only [step] at h
    split_ifs at h with c
    cases h
    simp only [Bool.and_eq_true] at c
    exact ⟨rfl, rfl, rfl, Or.inl rfl, Or.inr c.2⟩

theorem step_pumpInv (f : T → Bool) (s s1 : SubSys T) (a : Act T)
    (h : step f s a = some s1) (hinv : PumpInv s) : PumpInv s1 := by
  obtain ⟨hwf, hdst, hrel, hrun⟩ := hinv
  by_cases h1 : a = .pumpRecv
  · subst h1
    obtain ⟨msg, rest, e1, e2, e3, e4, e5, _, e7, e8, e9⟩ := step_recv_effect f s s1 h hwf
    refine ⟨e3, ?_, ?_, ?_⟩
    · rw [e5, e4]; simp
    · rw [e2]; rw [e1] at hrel; simp only [List.length_cons] at hrel; omega
    · intro hh; rw [e7, e9] at hh; cases hh
  · by_cases h2 : a = .pumpSend
    · subst h2
      obtain ⟨d1, d2, d3, d4, d5, _, d7, d8, d9⟩ := step_send_effect f s s1 h hwf
      refine ⟨d4, ?_, by rw [d3]; exact hrel, ?_⟩
      · rw [d7, isEmpty_eq _ d4]
        cases s1.pump.pending.contents <;> simp
      · intro hh; rw [d8, d2] at hh; cases hh
    · obtain ⟨o1, o2, _, o4, o5⟩ := step_other_effect f s s1 a h h1 h2
      refine ⟨by rw [o1]; exact hwf, by rw [o1, o2]; exact hdst, ?_, ?_⟩
      · rcases o4 with o4 | ⟨m, _, o4⟩
        · rw [o4]; exact hrel
        · rw [o4]; simp
      · intro hh
        rcases o5 with ⟨o5, o6⟩ | o5
        · rw [o5]; exact hrun (by rw [← o6]; exact hh)
        · exact o5

theorem init_pumpInv (s : SubSys T) (h : SubSys.init = some s) : PumpInv s := by
  obtain ⟨s0, h0, hwf, hnil, hr, _, _, hd, hrun, _⟩ := init_spec (T := T)
  rw [h0] at h
  cases h
  refine ⟨hwf, ?_, by rw [hr]; simp, ?_⟩
  · rw [hd, hnil]; simp
  · intro hh; rw [hrun] at hh; cases hh

theorem runActs_pumpInv (f : T → Bool) (acts : List (Act T)) :
    ∀ s s1 : SubSys T, runActs f acts s = some s1 → PumpInv s → PumpInv s1 := by
  induction acts with
  | nil =>
    intro s s1 h hinv
    cases h
    exact hinv
  | cons a acts ih =>
    intro s s1 h hinv
    simp only [runActs] at h
    cases hs : step f s a with
    | none => rw [hs] at h; cases h
    | some s2 =>
      rw [hs, Option.some_bind] at h
      exact ih s2 s1 h (step_pumpInv f s s2 a hs hinv)

theorem runSys_pumpInv (f : T → Bool) (acts : List (Act T)) (s : SubSys T)
    (h : runSys f acts = some s) : PumpInv s := by
  unfold runSys at h
  cases h0 : (SubSys.init : Option (SubSys T)) with
  | none => rw [h0] at h; cases h
  | some s0 =>
    rw [h0, Option.some_bind] at h
    exact runActs_pumpInv f acts s0 s h (init_pumpInv s0 h0)

theorem takenBy_spec (f : T → Bool) (acts : List (Act T)) :
    ∀ s s1 : SubSys T, runActs f acts s = some s1 → PumpInv s →
      s.received ++ s.pump.pending.contents ++ takenBy f acts s =
        s1.received ++ s1.pump.pending.contents := by
  induction acts with
  | nil =>
    intro s s1 h _
    cases h
    simp [takenBy]
  | cons a acts ih =>
    intro s s1 h hinv
    simp only [runActs] at h
    cases hs : step f s a with
    | none => rw [hs] at h; cases h
    | some s2 =>
      rw [hs, Option.some_bind] at h
      have ih2 := ih s2 s1 h (step_pumpInv f s s2 a hs hinv)
      obtain ⟨hwf, hdst, _, _⟩ := hinv
      by_cases h1 : a = .pumpRecv
      · subst h1
        obtain ⟨msg, rest, e1, _, _, e4, _, e6, _⟩ := step_recv_effect f s s2 hs hwf
        simp only [takenBy, hs]
        rw [← ih2, e4, e6, e1]
        simp
      · by_cases h2 : a = .pumpSend
        · subst h2
          obtain ⟨d1, _, _, _, d5, d6, _⟩ := step_send_effect f s s2 hs hwf
          simp only [takenBy, hs]
          rw [← ih2, d5, d6]
          obtain ⟨x, rest, hx⟩ := List.exists_cons_of_ne_nil (hdst.mp d1)
          rw [hx]
          simp
        · obtain ⟨o1, _, o3, _⟩ := step_other_effect f s s2 a hs h1 h2
          have ht : takenBy f (a :: acts) s = takenBy f acts s2 := by
            cases a <;>
              first
              | exact absurd rfl h1
              | exact absurd rfl h2
              | simp only [takenBy, hs]
          rw [ht, ← ih2, o1, o3]

/-- A running goroutine takes the value at the head of the relay whatever the
subscriber does: the branch needs nothing but a non-empty relay. -/
theorem recv_enabled (f : T → Bool) (s : SubSys T) (msg : T) (rest : List T)
    (hwf : s.pump.pending.WF) (hrun : s.pump.running = true) (hr : s.relay = msg :: rest) :
    ∃ s1, step f s .pumpRecv = some s1 ∧ s1.relay = rest ∧ s1.received = s.received ∧
      s1.published = s.published ∧ s1.stopClosed = s.stopClosed ∧
      s1.pump.pending.contents = s.pump.pending.contents ++ [msg] := by
  obtain ⟨q, k1, _, k3, _⟩ := Enqueue_spec s.pump.pending msg hwf
  refine ⟨(⟨rest, s.stopClosed, s.ctxDone, ⟨true, q, s.pump.running⟩, s.closes,
    s.received, s.published⟩ : SubSys T), ?_, rfl, rfl, rfl, rfl, k3⟩
  simp [step, hrun, hr, k1]

/-- With the subscription registered and the relay empty the handoff of `publish`
goes through. -/
theorem publish_enabled (f : T → Bool) (s : SubSys T) (m : T)
    (hreg : s.stopClosed = false) (hr : s.relay = []) :
    ∃ s1, step f s (.publish m) = some s1 ∧ s1.received = s.received ∧
      s1.published = s.published ++ [m] := by
  cases hf : f m
  · exact ⟨{ s with published := s.published ++ [m] }, by simp [step, hreg, hf], rfl, rfl⟩
  · exact ⟨{ s with relay := s.relay ++ [m], published := s.published ++ [m] },
      by simp [step, hreg, hf, hr], rfl, rfl⟩

/-! ## Claims about the goroutine -/

/-- C16: in every state of a subscription whose stop signal has not been closed the
goroutine is running; whenever the relay holds a value the branch
`case msg := <-queue` is enabled and moves it into the queue without anything
being received by the subscriber; and the handoff of `publish` for any value goes
through after at most one such branch and no send to the subscriber. -/
theorem C16_handoff_never_waits_for_subscriber (f : T → Bool) (acts : List (Act T))
    (s : SubSys T) (m : T) (hrun : runSys f acts = some s) (hreg : s.stopClosed = false) :
    s.pump.running = true ∧
    (∀ msg rest, s.relay = msg :: rest →
      ∃ s1, step f s .pumpRecv = some s1 ∧ s1.relay = rest ∧ s1.received = s.received ∧
        s1.pump.pending.contents = s.pump.pending.contents ++ [msg]) ∧
    ∃ sched s1, sched.length ≤ 1 ∧ (∀ a ∈ sched, a = Act.pumpRecv) ∧
      runActs f (sched ++ [.publish m]) s = some s1 ∧ s1.received = s.received ∧
      s1.published = s.published ++ [m] := by
  obtain ⟨hwf, _, hrel, hstop⟩ := runSys_pumpInv f acts s hrun
  have hr : s.pump.running = true := by
    cases hh : s.pump.running with
    | true => rfl
    | false => rw [hstop hh] at hreg; cases hreg
  refine ⟨hr, ?_, ?_⟩
  · intro msg rest hrl
    obtain ⟨s1, k1, k2, k3, _, _, k6⟩ := recv_enabled f s msg rest hwf hr hrl
    exact ⟨s1, k1, k2, k3, k6⟩
  · cases hrl : s.relay with
    | nil =>
      obtain ⟨s1, p1, p2, p3⟩ := publish_enabled f s m hreg hrl
      refine ⟨[], s1, by simp, by simp, ?_, p2, p3⟩
      simp only [List.nil_append, runActs, p1, Option.some_bind]
    | cons msg rest =>
      have hrest : rest = [] := by
        rw [hrl] at hrel
        simp only [List.length_cons] at hrel
        exact List.length_eq_zero.mp (by omega)
      obtain ⟨s2, k1, k2, k3, k4, k5, _⟩ := recv_enabled f s msg rest hwf hr hrl
      obtain ⟨s1, p1, p2, p3⟩ := publish_enabled f s2 m (by rw [k5, hreg])
        (by rw [k2, hrest])
      refine ⟨[.pumpRecv], s1, by simp, by simp, ?_, by rw [p2, k3], by rw [p3, k4]⟩
      simp only [List.singleton_append, runActs, k1, Option.some_bind, p1]

/-- Instance of C16: three values are published while the subscriber receives nothing;
a fourth handoff still goes through. -/
theorem C16_handoff_never_waits_for_subscriber_witness :
    ∃ s : SubSys Nat,
      runSys (fun _ => true) [.publish 1, .pumpRecv, .publish 2, .pumpRecv, .publish 3] =
        some s ∧
      s.stopClosed = false ∧ s.received = [] ∧ s.relay = [3] ∧
      ∃ sched s1, sched.length ≤ 1 ∧ (∀ a ∈ sched, a = Act.pumpRecv) ∧
        runActs (fun _ => true) (sched ++ [.publish 4]) s = some s1 ∧
        s1.received = s.received ∧ s1.published = s.published ++ [4] := by
  obtain ⟨s, hs⟩ : ∃ s : SubSys Nat, runSys (fun _ => true)
      [.publish 1, .pumpRecv, .publish 2, .pumpRecv, .publish 3] = some s := ⟨_, rfl⟩
  have h1 : s.stopClosed = false := by cases hs; rfl
  have h2 : s.received = [] := by cases hs; rfl
  have h3 : s.relay = [3] := by cases hs; rfl
  exact ⟨s, hs, h1, h2, h3,
    (C16_handoff_never_waits_for_subscriber (fun _ => true) _ s 4 hs h1).2.2⟩

/-- C18: in every state of a subscription reached from `Subscribe`, `dst` is non-nil
exactly when the queue of the goroutine is not empty; with an empty queue the send
branch is not enabled; and when the send branch is taken the queue is not empty
and the value sent is `at(0)`, which `Pending` returns with `true`, so it is never
the zero value that `PendingOrZero` gives for an empty queue. -/
theorem C18_send_offers_queue_head (f : T → Bool) (acts : List (Act T)) (s : SubSys T)
    (hrun : runSys f acts = some s) :
    (s.pump.dstSet = true ↔ s.pump.pending.IsEmpty = false) ∧
    (s.pump.pending.IsEmpty = true → step f s .pumpSend = none) ∧
    (∀ s1, step f s .pumpSend = some s1 →
      s.pump.pending.IsEmpty = false ∧
      ∃ x, s.pump.pending.at 0 = some x ∧
        s.pump.pending.Pending = some ((x, true), s.pump.pending) ∧
        s.pump.pending.PendingOrZero = some (x, s.pump.pending) ∧
        s1.received = s.received ++ [x]) := by
  obtain ⟨hwf, hdst, _, _⟩ := runSys_pumpInv f acts s hrun
  have hE := isEmpty_eq s.pump.pending hwf
  have hiff : s.pump.dstSet = true ↔ s.pump.pending.IsEmpty = false := by
    rw [hdst, hE]
    cases s.pump.pending.contents <;> simp
  refine ⟨hiff, ?_, ?_⟩
  · intro he
    have hd : s.pump.dstSet = false := by
      cases hh : s.pump.dstSet with
      | false => rfl
      | true => rw [hiff.mp hh] at he; cases he
    simp [step, hd]
  · intro s1 h1
    obtain ⟨d1, _, _, _, _, d6, _⟩ := step_send_effect f s s1 h1 hwf
    obtain ⟨x, rest, hx⟩ := List.exists_cons_of_ne_nil (hdst.mp d1)
    have hat := at_eq_contents s.pump.pending hwf 0 (by rw [hx]; simp)
    simp only [hx, List.getElem?_cons_zero] at hat
    have hp := Pending_spec s.pump.pending hwf
    have hpz := PendingOrZero_spec s.pump.pending hwf
    rw [hx] at hp hpz
    refine ⟨hiff.mp d1, x, hat, hp, hpz, ?_⟩
    rw [d6, hx]
    rfl

/-- Instance of C18: after two values were taken and one sent, `dst` is set, the queue
holds the second value, and the send branch delivers exactly it. -/
theorem C18_send_offers_queue_head_witness :
    ∃ s s1 : SubSys Nat,
      runSys (fun _ => true) [.publish 7, .pumpRecv, .publish 0, .pumpRecv, .pumpSend] =
        some s ∧
      s.pump.dstSet = true ∧ s.pump.pending.IsEmpty = false ∧
      step (fun _ => true) s .pumpSend = some s1 ∧ s1.received = [7, 0] ∧
      s1.pump.dstSet = false ∧ step (fun _ => true) s1 .pumpSend = none := by
  obtain ⟨s, hs⟩ : ∃ s : SubSys Nat, runSys (fun _ => true)
      [.publish 7, .pumpRecv, .publish 0, .pumpRecv, .pumpSend] = some s := ⟨_, rfl⟩
  obtain ⟨s1, h1⟩ : ∃ s1 : SubSys Nat, step (fun _ => true) s .pumpSend = some s1 := by
    cases hs; exact ⟨_, rfl⟩
  have hd : s.pump.dstSet = true := by cases hs; rfl
  have hr : s1.received = [7, 0] := by cases hs; cases h1; rfl
  have hd1 : s1.pump.dstSet = false := by cases hs; cases h1; rfl
  have hn : step (fun _ => true) s1 .pumpSend = none := by cases hs; cases h1; rfl
  exact ⟨s, s1, hs, hd, (C18_send_offers_queue_head (fun _ => true) _ s hs).1.mp hd,
    h1, hr, hd1, hn⟩

/-- C19: along every schedule of a subscription from `Subscribe`, the values the
goroutine has taken from the relay are, in order, the values it has sent followed
by the contents of its queue; so what was sent is a prefix of what was taken, and
a send delivers the head of the queue and removes exactly that element. -/
theorem C19_taken_is_sent_then_queued (f : T → Bool) (acts : List (Act T)) (s : SubSys T)
    (hrun : runSys f acts = some s) :
    takenSys f acts = s.received ++ s.pump.pending.contents ∧
    s.received <+: takenSys f acts ∧
    (∀ s1, step f s .pumpSend = some s1 →
      ∃ x rest, s.pump.pending.contents = x :: rest ∧
        s1.received = s.received ++ [x] ∧ s1.pump.pending.contents = rest) := by
  have hinv := runSys_pumpInv f acts s hrun
  unfold runSys at hrun
  unfold takenSys
  cases h0 : (SubSys.init : Option (SubSys T)) with
  | none => rw [h0] at hrun; cases hrun
  | some s0 =>
    rw [h0, Option.some_bind] at hrun
    simp only
    have ht := takenBy_spec f acts s0 s hrun (init_pumpInv s0 h0)
    obtain ⟨s00, h00, _, hnil, _, hrec, _⟩ := init_spec (T := T)
    rw [h00] at h0
    cases h0
    rw [hrec, hnil] at ht
    simp only [List.nil_append] at ht
    refine ⟨ht, by rw [ht]; exact List.prefix_append _ _, ?_⟩
    intro s1 h1
    obtain ⟨d1, _, _, _, d5, d6, _⟩ := step_send_effect f s s1 h1 hinv.1
    obtain ⟨x, rest, hx⟩ := List.exists_cons_of_ne_nil (hinv.2.1.mp d1)
    exact ⟨x, rest, hx, by rw [d6, hx]; rfl, by rw [d5, hx]; rfl⟩

/-- Instance of C19: three values taken, one sent, two queued. -/
theorem C19_taken_is_sent_then_queued_witness :
    ∃ s : SubSys Nat,
      runSys (fun _ => true)
        [.publish 1, .pumpRecv, .publish 2, .pumpRecv, .pumpSend, .publish 3, .pumpRecv] =
        some s ∧
      s.received = [1] ∧ s.pump.pending.contents = [2, 3] ∧
      takenSys (fun _ => true)
        [.publish 1, .pumpRecv, .publish 2, .pumpRecv, .pumpSend, .publish 3,
          (.pumpRecv : Act Nat)] = [1, 2, 3] := by
  obtain ⟨s, hs⟩ : ∃ s : SubSys Nat, runSys (fun _ => true)
      [.publish 1, .pumpRecv, .publish 2, .pumpRecv, .pumpSend, .publish 3, .pumpRecv] =
        some s := ⟨_, rfl⟩
  have h1 : s.received = [1] := by cases hs; rfl
  have h2 : s.pump.pending.contents = [2, 3] := by cases hs; decide
  refine ⟨s, hs, h1, h2, ?_⟩
  rw [(C19_taken_is_sent_then_queued (fun _ => true) _ s hs).1, h1, h2]
  rfl

/-! ## Delivery to one subscriber -/

theorem handedOver_cons (a : Act T) (acts : List (Act T)) :
    handedOver (a :: acts) = handedOver [a] ++ handedOver acts := by
  cases a <;> rfl

theorem abandoned_cons (a : Act T) (acts : List (Act T)) :
    abandoned (a :: acts) = abandoned [a] ++ abandoned acts := by
  cases a <;> rfl

/-- What one branch does to the values on their way to the subscriber: only a handoff
that `publish` did not abandon adds one, and only when the filter accepts it. -/
theorem step_handed (f : T → Bool) (s s1 : SubSys T) (a : Act T)
    (h : step f s a = some s1) (hinv : PumpInv s) :
    s1.received ++ s1.pump.pending.contents ++ s1.relay =
      s.received ++ s.pump.pending.contents ++ s.relay ++ (handedOver [a]).filter f ∧
    s1.published = s.published ++ handedOver [a] ++ abandoned [a] := by
  obtain ⟨hwf, hdst, _, _⟩ := hinv
  cases a with
  | publish m =>
    simp only [step] at h
    split_ifs at h with h1 h2 h3
    · cases h
      simp only [Bool.not_eq_true'] at h2
      simp [handedOver, abandoned, h2]
    · cases h
      simp only [Bool.not_eq_true', Bool.not_eq_false] at h2
      simp [handedOver, abandoned, h2]
  | publishCtxDone m =>
    simp only [step] at h
    split_ifs at h
    cases h
    simp [handedOver, abandoned]
  | cancel =>
    simp only [step] at h
    cases h
    simp [handedOver, abandoned]
  | unsubscribe =>
    simp only [step] at h
    split_ifs at h
    cases h
    simp [handedOver, abandoned]
  | pumpRecv =>
    simp only [step] at h
    split_ifs at h
    cases hr : s.relay with
    | nil => rw [hr] at h; cases h
    | cons msg rest =>
      rw [hr] at h
      obtain ⟨q, k1, _, k3, _⟩ := Enqueue_spec s.pump.pending msg hwf
      simp only [k1, Option.map_some'] at h
      cases h
      simp [handedOver, abandoned, k3]
  | pumpSend =>
    simp only [step] at h
    split_ifs at h with h1
    simp only [Bool.or_eq_true, Bool.not_eq_true', not_or, Bool.not_eq_false] at h1
    obtain ⟨q, k1, _, k3, _⟩ := Dequeue_spec s.pump.pending hwf
    simp only [PendingOrZero_spec _ hwf, Option.some_bind, k1, Option.map_some'] at h
    cases h
    obtain ⟨x, rest, hx⟩ := List.exists_cons_of_ne_nil (hdst.mp h1.2)
    simp [handedOver, abandoned, k3, hx]
  | pumpStop =>
    simp only [step] at h
    split_ifs at h
    cases h
    simp [handedOver, abandoned]

/-- Along a schedule the values on their way to the subscriber grow by the accepted
values that were handed over, and `published` by every value `publish` was called
with for this subscription. -/
theorem runActs_handed (f : T → Bool) (acts : List (Act T)) :
    ∀ s s1 : SubSys T, runActs f acts s = some s1 → PumpInv s →
      s1.received ++ s1.pump.pending.contents ++ s1.relay =
        s.received ++ s.pump.pending.contents ++ s.relay ++ (handedOver acts).filter f ∧
      (s.published ++ handedOver acts).Sublist s1.published ∧
      s1.published.length =
        s.published.length + (handedOver acts).length + (abandoned acts).length ∧
      (abandoned acts = [] → s1.published = s.published ++ handedOver acts) := by
  induction acts with
  | nil =>
    intro s s1 h _
    cases h
    simp [handedOver, abandoned]
  | cons a acts ih =>
    intro s s1 h hinv
    simp only [runActs] at h
    cases hs : step f s a with
    | none => rw [hs] at h; cases h
    | some s2 =>
      rw [hs, Option.some_bind] at h
      obtain ⟨i1, i2, i3, i4⟩ := ih s2 s1 h (step_pumpInv f s s2 a hs hinv)
      obtain ⟨e1, e2⟩ := step_handed f s s2 a hs hinv
      rw [handedOver_cons, abandoned_cons]
      refine ⟨?_, ?_, ?_, ?_⟩
      · rw [i1, e1]
        simp
      · refine List.Sublist.trans ?_ i2
        rw [e2, ← List.append_assoc]
        exact List.Sublist.append_right (List.sublist_append_left _ _) _
      · rw [i3, e2]
        simp only [List.length_append]
        omega
      · intro hab
        obtain ⟨hab1, hab2⟩ := List.append_eq_nil.mp hab
        rw [i4 hab2, e2, hab1]
        simp

/-- A handoff is abandoned only with the context done. -/
theorem runActs_abandoned (f : T → Bool) (acts : List (Act T)) :
    ∀ s s1 : SubSys T, runActs f acts s = some s1 → s1.ctxDone = false →
      abandoned acts = [] := by
  induction acts with
  | nil => intro _ _ _ _; rfl
  | cons a acts ih =>
    intro s s1 h hc
    simp only [runActs] at h
    cases hs : step f s a with
    | none => rw [hs] at h; cases h
    | some s2 =>
      rw [hs, Option.some_bind] at h
      have hmid := runActs_ctx f acts s2 s1 h hc
      have hna := (step_ctx f s s2 a hs hmid).2
      rw [abandoned_cons, ih s2 s1 h hc, List.append_nil]
      cases a <;> first | rfl | exact absurd rfl (hna _)

/-- A running goroutine with a non-empty queue sends its head when the subscriber
receives. -/
theorem send_enabled (f : T → Bool) (s : SubSys T) (x : T) (rest : List T)
    (hinv : PumpInv s) (hrun : s.pump.running = true)
    (hx : s.pump.pending.contents = x :: rest) :
    ∃ s1, step f s .pumpSend = some s1 ∧ s1.relay = s.relay ∧
      s1.received = s.received ++ [x] ∧ s1.published = s.published ∧
      s1.pump.running = true ∧ s1.pump.pending.contents = rest := by
  obtain ⟨hwf, hdst, _, _⟩ := hinv
  obtain ⟨q, k1, _, k3, _⟩ := Dequeue_spec s.pump.pending hwf
  have hd : s.pump.dstSet = true := hdst.mpr (by rw [hx]; simp)
  refine ⟨(⟨s.relay, s.stopClosed, s.ctxDone,
    ⟨if q.IsEmpty then false else s.pump.dstSet, q, s.pump.running⟩, s.closes,
    s.received ++ [x], s.published⟩ : SubSys T), ?_, rfl, rfl, rfl, hrun, ?_⟩
  · simp [step, hrun, hd, PendingOrZero_spec _ hwf, k1, hx]
  · simp [k3, hx]

theorem pump_recv_all (f : T → Bool) :
    ∀ (n : Nat) (s : SubSys T), PumpInv s → s.pump.running = true → s.relay.length = n →
      ∃ s1, runActs f (List.replicate n Act.pumpRecv) s = some s1 ∧ PumpInv s1 ∧
        s1.relay = [] ∧ s1.published = s.published ∧ s1.pump.running = true ∧
        s1.received = s.received ∧
        s1.pump.pending.contents = s.pump.pending.contents ++ s.relay := by
  intro n
  induction n with
  | zero =>
    intro s hinv hrun hn
    have hr : s.relay = [] := List.length_eq_zero.mp hn
    exact ⟨s, rfl, hinv, hr, rfl, hrun, rfl, by rw [hr, List.append_nil]⟩
  | succ n ih =>
    intro s hinv hrun hn
    cases hr : s.relay with
    | nil => rw [hr] at hn; cases hn
    | cons msg rest =>
      obtain ⟨s2, k1, k2, k3, k4, k5, k6⟩ := recv_enabled f s msg rest hinv.1 hrun hr
      have hinv2 := step_pumpInv f s s2 _ k1 hinv
      have hrun2 : s2.pump.running = true := by
        obtain ⟨_, _, _, _, _, _, _, _, e7, _⟩ := step_recv_effect f s s2 k1 hinv.1
        rw [e7, hrun]
      obtain ⟨s1, j1, j2, j3, j4, j5, j6, j7⟩ := ih s2 hinv2 hrun2
        (by rw [k2]; rw [hr] at hn; simpa using hn)
      refine ⟨s1, ?_, j2, j3, by rw [j4, k4], j5, by rw [j6, k3], ?_⟩
      · simp only [List.replicate_succ, runActs, k1, Option.some_bind, j1]
      · rw [j7, k6, k2]
        simp

theorem pump_send_all (f : T → Bool) :
    ∀ (n : Nat) (s : SubSys T), PumpInv s → s.pump.running = true →
      s.pump.pending.contents.length = n →
      ∃ s1, runActs f (List.replicate n Act.pumpSend) s = some s1 ∧ PumpInv s1 ∧
        s1.relay = s.relay ∧ s1.pump.pending.contents = [] ∧
        s1.published = s.published ∧
        s1.received = s.received ++ s.pump.pending.contents := by
  intro n
  induction n with
  | zero =>
    intro s hinv hrun hn
    have hc : s.pump.pending.contents = [] := List.length_eq_zero.mp hn
    exact ⟨s, rfl, hinv, rfl, hc, rfl, by rw [hc, List.append_nil]⟩
  | succ n ih =>
    intro s hinv hrun hn
    cases hx : s.pump.pending.contents with
    | nil => rw [hx] at hn; cases hn
    | cons x rest =>
      obtain ⟨s2, k1, k2, k3, k4, k5, k6⟩ := send_enabled f s x rest hinv hrun hx
      have hinv2 := step_pumpInv f s s2 _ k1 hinv
      obtain ⟨s1, j1, j2, j3, j4, j5, j6⟩ := ih s2 hinv2 k5
        (by rw [k6]; rw [hx] at hn; simpa using hn)
      refine ⟨s1, ?_, j2, by rw [j3, k2], j4, by rw [j5, k4], ?_⟩
      · simp only [List.replicate_succ, runActs, k1, Option.some_bind, j1]
      · rw [j6, k3, k6]
        simp

/-- A running goroutine and a receiving subscriber reach, by `pumpRecv` and `pumpSend`
alone, a state where everything that was on its way has been received. -/
theorem pump_drain (f : T → Bool) (s : SubSys T) (hinv : PumpInv s)
    (hrun : s.pump.running = true) :
    ∃ sched s1, (∀ a ∈ sched, a = Act.pumpRecv ∨ a = Act.pumpSend) ∧
      runActs f sched s = some s1 ∧ s1.published = s.published ∧ s1.relay = [] ∧
      s1.pump.pending.contents = [] ∧ s1.pump.pending.WF ∧
      s1.received = s.received ++ s.pump.pending.contents ++ s.relay := by
  obtain ⟨s2, k1, k2, k3, k4, k5, k6, k7⟩ := pump_recv_all f s.relay.length s hinv hrun rfl
  obtain ⟨s1, j1, j2, j3, j4, j5, j6⟩ :=
    pump_send_all f s2.pump.pending.contents.length s2 k2 k5 rfl
  refine ⟨List.replicate s.relay.length Act.pumpRecv ++
    List.replicate s2.pump.pending.contents.length Act.pumpSend, s1, ?_, ?_, ?_, ?_, j4,
    j2.1, ?_⟩
  · intro a ha
    rcases List.mem_append.mp ha with h | h
    · exact Or.inl (List.eq_of_mem_replicate h)
    · exact Or.inr (List.eq_of_mem_replicate h)
  · rw [runActs_append, k1, Option.some_bind, j1]
  · rw [j5, k4]
  · rw [j3, k3]
  · rw [j6, k6, k7, List.append_assoc]

/-- Once the goroutine has returned, no branch delivers anything. -/
theorem step_stopped (f : T → Bool) (s s1 : SubSys T) (a : Act T)
    (h : step f s a = some s1) (hr : s.pump.running = false) :
    s1.received = s.received ∧ s1.pump.running = false := by
  cases a with
  | publish m =>
    simp only [step] at h
    split_ifs at h <;> cases h <;> exact ⟨rfl, hr⟩
  | publishCtxDone m =>
    simp only [step] at h
    split_ifs at h
    cases h
    exact ⟨rfl, hr⟩
  | cancel =>
    simp only [step] at h
    cases h
    exact ⟨rfl, hr⟩
  | unsubscribe =>
    simp only [step] at h
    split_ifs at h
    cases h
    exact ⟨rfl, hr⟩
  | pumpRecv => simp [step, hr] at h
  | pumpSend => simp [step, hr] at h
  | pumpStop => simp [step, hr] at h

theorem runActs_stopped (f : T → Bool) (acts : List (Act T)) :
    ∀ s s1 : SubSys T, runActs f acts s = some s1 → s.pump.running = false →
      s1.received = s.received := by
  induction acts with
  | nil =>
    intro s s1 h _
    cases h
    rfl
  | cons a acts ih =>
    intro s s1 h hr
    simp only [runActs] at h
    cases hs : step f s a with
    | none => rw [hs] at h; cases h
    | some s2 =>
      rw [hs, Option.some_bind] at h
      obtain ⟨e1, e2⟩ := step_stopped f s s2 a hs hr
      rw [ih s2 s1 h e2, e1]

/-! ## Claims about delivery -/

/-- Counterexample to C8 as stated, two runs with an accept-all subscriber.  In the
first the subscriber stays registered, the context is cancelled, and the handoff of
the published value 1 takes `case <-ctx.Done(): return`: relay and queue are then
empty, so the subscriber has consumed everything there is, yet it has received
nothing of the published `[1]`.  In the second, 1 and 2 are published and handed
over while the subscriber is registered and has not yet received; `Unsubscribe`
closes `stop` and the goroutine takes `case <-stop`: whatever happens afterwards,
the subscriber receives neither. -/
theorem C8_counterexample_published_value_dropped :
    (∃ s : SubSys Nat,
      runSys (fun _ => true) [.cancel, .publishCtxDone 1] = some s ∧
      s.stopClosed = false ∧ s.published = [1] ∧ s.relay = [] ∧
      s.pump.pending.IsEmpty = true ∧ s.received = [] ∧
      s.received ≠ s.published.filter (fun _ => true) ∧
      ∀ sched s1, (∀ a ∈ sched, a = Act.pumpRecv ∨ a = Act.pumpSend) →
        runActs (fun _ => true) sched s = some s1 → s1.received = []) ∧
    (∃ s0 s : SubSys Nat,
      runSys (fun _ => true) [.publish 1, .pumpRecv, .publish 2, .pumpRecv] = some s0 ∧
      s0.stopClosed = false ∧ s0.ctxDone = false ∧ s0.published = [1, 2] ∧
      runActs (fun _ => true) [.unsubscribe, .pumpStop] s0 = some s ∧
      s.published = [1, 2] ∧ s.received = [] ∧
      s.received ≠ s.published.filter (fun _ => true) ∧
      ∀ sched s1, runActs (fun _ => true) sched s = some s1 → s1.received = []) := by
  refine ⟨⟨⟨[], false, true, ⟨false, ⟨List.replicate 16 0, 0, 0⟩, true⟩, 0, [], [1]⟩,
    by decide, rfl, rfl, rfl, by decide, rfl, by decide, ?_⟩, ?_⟩
  · intro sched s1 hs hrun
    cases sched with
    | nil => cases hrun; rfl
    | cons a rest =>
      rcases hs a (List.mem_cons_self _ _) with h | h
      · subst h; simp [runActs, step] at hrun
      · subst h; simp [runActs, step] at hrun
  · obtain ⟨s0, h0⟩ : ∃ s0 : SubSys Nat, runSys (fun _ => true)
        [.publish 1, .pumpRecv, .publish 2, .pumpRecv] = some s0 := ⟨_, rfl⟩
    obtain ⟨s, hs⟩ : ∃ s : SubSys Nat,
        runActs (fun _ => true) [.unsubscribe, .pumpStop] s0 = some s := by
      cases h0; exact ⟨_, rfl⟩
    have hr : s.pump.running = false := by cases h0; cases hs; rfl
    have hrec : s.received = [] := by cases h0; cases hs; rfl
    have hpub : s.published = [1, 2] := by cases h0; cases hs; rfl
    refine ⟨s0, s, h0, by cases h0; rfl, by cases h0; rfl, by cases h0; rfl, hs, hpub,
      hrec, by rw [hrec, hpub]; decide, ?_⟩
    intro sched s1 h1
    rw [runActs_stopped _ sched s s1 h1 hr, hrec]

/-- C8 amended: along every schedule of one subscription, with or without
cancellation, what the subscriber has received, followed by what is queued and
what is in the relay, is, in publish order, the list of the values accepted by the
filter whose handoff `publish` did not abandon; these values are the published
ones less the abandoned handoffs, and all the published ones when nothing was
abandoned, as is the case while the context is not done.  So the received values
are a prefix of that list, without reordering or duplicate, and all of it once
relay and queue are empty (the published values themselves for an accept-all
filter and no abandoned handoff).  While `stop` is open the goroutine is running,
and a running goroutine with a receiving subscriber delivers by its own branches
everything outstanding, however much has piled up.  An abandoned handoff puts
nothing on the way to the subscriber, and once the goroutine has taken
`case <-stop` nothing more is received. -/
theorem C8_delivery_is_filtered_publish_order (f : T → Bool) (acts : List (Act T))
    (s : SubSys T) (hrun : runSys f acts = some s) :
    s.received ++ s.pump.pending.contents ++ s.relay = (handedOver acts).filter f ∧
    s.received <+: (handedOver acts).filter f ∧
    (handedOver acts).Sublist s.published ∧
    s.published.length = (handedOver acts).length + (abandoned acts).length ∧
    (abandoned acts = [] → handedOver acts = s.published) ∧
    (s.ctxDone = false → abandoned acts = []) ∧
    (s.relay = [] → s.pump.pending.IsEmpty = true →
      s.received = (handedOver acts).filter f) ∧
    ((∀ m, f m = true) → abandoned acts = [] → s.relay = [] →
      s.pump.pending.IsEmpty = true → s.received = s.published) ∧
    (s.stopClosed = false → s.pump.running = true) ∧
    (s.pump.running = true →
      ∃ sched s1, (∀ a ∈ sched, a = Act.pumpRecv ∨ a = Act.pumpSend) ∧
        runActs f sched s = some s1 ∧ s1.published = s.published ∧ s1.relay = [] ∧
        s1.pump.pending.IsEmpty = true ∧ s1.received = (handedOver acts).filter f) ∧
    (∀ m s1, step f s (.publishCtxDone m) = some s1 →
      s1.received = s.received ∧ s1.pump = s.pump ∧ s1.relay = s.relay ∧
        s1.published = s.published ++ [m]) ∧
    (s.pump.running = false →
      ∀ sched s1, runActs f sched s = some s1 → s1.received = s.received) := by
  have hinv := runSys_pumpInv f acts s hrun
  unfold runSys at hrun
  cases h0 : (SubSys.init : Option (SubSys T)) with
  | none => rw [h0] at hrun; cases hrun
  | some s0 =>
    rw [h0, Option.some_bind] at hrun
    obtain ⟨e1, e2, e3, e4⟩ := runActs_handed f acts s0 s hrun (init_pumpInv s0 h0)
    have hab := runActs_abandoned f acts s0 s hrun
    obtain ⟨s00, h00, _, hnil, hrl, hrec, hpub, _⟩ := init_spec (T := T)
    rw [h00] at h0
    cases h0
    rw [hrec, hnil, hrl] at e1
    rw [hpub] at e2 e3 e4
    simp only [List.nil_append, List.length_nil, Nat.zero_add] at e1 e2 e3 e4
    obtain ⟨hwf, hdst, hrel, hstop⟩ := hinv
    have hdone : s.relay = [] → s.pump.pending.IsEmpty = true →
        s.received = (handedOver acts).filter f := by
      intro hr he
      rw [isEmpty_eq _ hwf] at he
      rw [← e1, hr, List.isEmpty_iff.mp he]
      simp
    refine ⟨e1, ?_, e2, e3, fun h => (e4 h).symm, hab, hdone, ?_, ?_, ?_, ?_,
      fun hr sched s1 h1 => runActs_stopped f sched s s1 h1 hr⟩
    · rw [← e1, List.append_assoc]
      exact List.prefix_append _ _
    · intro hall hnone hr he
      rw [hdone hr he, ← e4 hnone]
      exact List.filter_eq_self.mpr (fun a _ => hall a)
    · intro hreg
      cases hh : s.pump.running with
      | true => rfl
      | false => rw [hstop hh] at hreg; cases hreg
    · intro hr
      obtain ⟨sched, s1, d1, d2, d3, d4, d5, d6, d7⟩ :=
        pump_drain f s ⟨hwf, hdst, hrel, hstop⟩ hr
      refine ⟨sched, s1, d1, d2, d3, d4, ?_, by rw [d7, e1]⟩
      rw [isEmpty_eq _ d6, d5]
      rfl
    · intro m s1 h1
      simp only [step] at h1
      split_ifs at h1
      cases h1
      exact ⟨rfl, rfl, rfl, rfl⟩

/-- Instance of C8 (amended): a subscriber accepting the odd values; 1 is handed over,
2 is rejected by the filter, the context is cancelled and the handoff of 3 is
abandoned, 5 is still handed over; the subscriber, receiving only at the end,
gets 1 and 5. -/
theorem C8_delivery_is_filtered_publish_order_witness :
    ∃ s : SubSys Nat,
      runSys (fun m : Nat => m % 2 == 1)
        [.publish 1, .pumpRecv, .publish 2, .cancel, .publishCtxDone 3, .publish 5,
          .pumpRecv, .pumpSend, .pumpSend] = some s ∧
      s.published = [1, 2, 3, 5] ∧ s.relay = [] ∧ s.pump.pending.IsEmpty = true ∧
      s.received = [1, 5] := by
  obtain ⟨s, hs⟩ : ∃ s : SubSys Nat, runSys (fun m : Nat => m % 2 == 1)
      [.publish 1, .pumpRecv, .publish 2, .cancel, .publishCtxDone 3, .publish 5,
        .pumpRecv, .pumpSend, .pumpSend] = some s := ⟨_, rfl⟩
  have hp : s.published = [1, 2, 3, 5] := by cases hs; rfl
  have hr : s.relay = [] := by cases hs; rfl
  have he : s.pump.pending.IsEmpty = true := by cases hs; decide
  have h := C8_delivery_is_filtered_publish_order (fun m : Nat => m % 2 == 1) _ s hs
  refine ⟨s, hs, hp, hr, he, ?_⟩
  rw [h.2.2.2.2.2.2.1 hr he]
  rfl

/-! ## `publish` and `Listen` -/

theorem listenTrace_cons (m : T) (msgs : List T) :
    listenTrace (m :: msgs) = .pulled m :: .published m :: listenTrace msgs := rfl

theorem listenLoop_recv (msgs : List T) (rest : List (Sel T)) :
    listenLoop (msgs.map Sel.recv ++ rest) =
      (listenTrace msgs ++ (listenLoop rest).1, (listenLoop rest).2) := by
  induction msgs with
  | nil => rfl
  | cons m msgs ih =>
    have h1 : listenLoop (List.map Sel.recv (m :: msgs) ++ rest) =
        (.pulled m :: .published m :: (listenLoop (List.map Sel.recv msgs ++ rest)).1,
          (listenLoop (List.map Sel.recv msgs ++ rest)).2) := rfl
    rw [h1, ih, listenTrace_cons]
    rfl

theorem accepting_cons (value : T) (ch : Nat) (sub : pipeSub T)
    (l : List (Nat × pipeSub T)) :
    accepting value ((ch, sub) :: l) =
      if sub.filter value = true then ch :: accepting value l else accepting value l := by
  unfold accepting
  rw [List.filter_cons]
  split <;> rfl

/-- With every handoff taking the send branch, `publish` hands the value to exactly the
accepting entries. -/
theorem publishLoop_all_sent (value : T) (choice : Nat → Handoff)
    (l : List (Nat × pipeSub T))
    (h : ∀ p ∈ l, p.2.filter value = true → choice p.1 = .sent) :
    publishLoop value choice l = accepting value l := by
  induction l with
  | nil => rfl
  | cons p l ih =>
    obtain ⟨ch, sub⟩ := p
    have ih1 := ih (fun q hq => h q (List.mem_cons_of_mem _ hq))
    rw [accepting_cons]
    cases hf : sub.filter value with
    | false => simp [publishLoop, hf, ih1]
    | true =>
      have hc := h (ch, sub) (List.mem_cons_self _ _) hf
      simp only at hc
      simp [publishLoop, hf, hc, ih1]

/-- The loop of `publish` up to the first accepting entry whose handoff is not a send. -/
theorem publishLoop_prefix (value : T) (choice : Nat → Handoff)
    (pre post : List (Nat × pipeSub T)) (ch : Nat) (sub : pipeSub T)
    (hpre : ∀ p ∈ pre, p.2.filter value = true → choice p.1 = .sent)
    (hacc : sub.filter value = true) :
    publishLoop value choice (pre ++ (ch, sub) :: post) =
      accepting value pre ++
        (match choice ch with
          | .sent => ch :: publishLoop value choice post
          | _ => []) := by
  induction pre with
  | nil =>
    simp only [List.nil_append, publishLoop, hacc]
    cases choice ch <;> rfl
  | cons p pre ih =>
    obtain ⟨c, sb⟩ := p
    have ih1 := ih (fun q hq => hpre q (List.mem_cons_of_mem _ hq))
    rw [accepting_cons]
    cases hf : sb.filter value with
    | false => simp [publishLoop, hf, ih1]
    | true =>
      have hc := hpre (c, sb) (List.mem_cons_self _ _) hf
      simp only at hc
      simp [publishLoop, hf, hc, ih1]

theorem publishLoop_eq_spec (value : T) (choice : Nat → Handoff)
    (l : List (Nat × pipeSub T)) (h : ∀ p ∈ l, choice p.1 ≠ .stopFired) :
    publishLoop value choice l = specPublishLoop value choice l := by
  induction l with
  | nil => rfl
  | cons p l ih =>
    obtain ⟨ch, sub⟩ := p
    have ih1 := ih (fun q hq => h q (List.mem_cons_of_mem _ hq))
    have hc := h (ch, sub) (List.mem_cons_self _ _)
    simp only at hc
    simp only [publishLoop, specPublishLoop, ih1]
    cases hch : choice ch with
    | ctxDone => rfl
    | stopFired => exact absurd hch hc
    | sent => rfl

/-! ## The handoffs of `publish` on a reached registry -/

/-- In a map whose keys are distinct every entry is found under its key. -/
theorem mapGet_of_mem {α : Type} (l : List (Nat × α)) (hnd : (l.map Prod.fst).Nodup)
    (p : Nat × α) (hp : p ∈ l) : mapGet (some l) p.1 = some p.2 := by
  induction l with
  | nil => cases hp
  | cons q l ih =>
    simp only [List.map_cons, List.nodup_cons] at hnd
    rcases List.mem_cons.mp hp with h | h
    · subst h
      simp [mapGet]
    · have hne : q.1 ≠ p.1 := fun he => hnd.1 (by rw [he]; exact List.mem_map_of_mem _ h)
      have hq : (q.1 == p.1) = false := by simpa using hne
      have h1 := ih hnd.2 h
      simp only [mapGet, List.find?_cons, hq] at h1 ⊢
      exact h1

theorem keys_filter {α : Type} (l : List (Nat × α)) (q : Nat × α → Bool)
    (hnd : (l.map Prod.fst).Nodup) : ((l.filter q).map Prod.fst).Nodup :=
  List.Nodup.sublist ((List.filter_sublist l).map Prod.fst) hnd

theorem keys_mapSet {α : Type} (l : List (Nat × α)) (k : Nat) (v : α)
    (hnd : (l.map Prod.fst).Nodup) : ((mapSet l k v).map Prod.fst).Nodup := by
  unfold mapSet
  rw [List.map_cons, List.nodup_cons]
  refine ⟨?_, keys_filter l _ hnd⟩
  intro hm
  obtain ⟨p, hp, hk⟩ := List.mem_map.mp hm
  have hne := (List.mem_filter.mp hp).2
  simp only [bne_iff_ne, ne_eq] at hne
  exact hne hk

theorem Subscribe_keys (s s1 : Subscriber T) (ch : Nat) (filter : Option (T → Bool))
    (hnd : (s.entries.map Prod.fst).Nodup) (h : s.Subscribe ch filter = .done s1) :
    (s1.entries.map Prod.fst).Nodup := by
  cases hg : mapGet s.subs ch with
  | some sub => rw [Subscribe_registered s ch filter sub hg] at h; cases h
  | none =>
    rw [Subscribe_unregistered s ch filter hg] at h
    cases h
    have he : s.subs.getD [] = s.entries := by
      rcases s with ⟨subs, n, cl, ps⟩
      cases subs <;> rfl
    simp only [Subscriber.entries, he]
    exact keys_mapSet _ _ _ hnd

theorem unsub_keys (s s1 : Subscriber T) (ch : Nat) (hinv : RegInv s)
    (hnd : (s.entries.map Prod.fst).Nodup) (h : s.unsub ch = .done s1) :
    (s1.entries.map Prod.fst).Nodup := by
  cases hg : mapGet s.subs ch with
  | none =>
    rw [unsub_unregistered s ch hg] at h
    cases h
    exact hnd
  | some sub =>
    rw [unsub_registered s ch sub hinv hg] at h
    cases h
    rcases s with ⟨subs, n, cl, ps⟩
    cases subs with
    | none => exact List.nodup_nil
    | some l => exact keys_filter l _ hnd

/-- The endpoints of a reached registry are distinct. -/
theorem runCalls_keys (calls : List (Call T)) :
    ∀ s s1 : Subscriber T, RegInv s → (s.entries.map Prod.fst).Nodup →
      runCalls calls s = .done s1 → (s1.entries.map Prod.fst).Nodup := by
  induction calls with
  | nil =>
    intro s s1 _ hnd h
    cases h
    exact hnd
  | cons c cs ih =>
    intro s s1 hinv hnd h
    simp only [runCalls] at h
    cases hc : c.apply s with
    | panicked msg s2 => rw [hc] at h; cases h
    | done s2 =>
      rw [hc] at h
      cases c with
      | subscribe ch filter =>
        exact ih s2 s1 (Subscribe_inv s s2 ch filter hinv hc)
          (Subscribe_keys s s2 ch filter hnd hc) h
      | unsubscribe ch =>
        exact ih s2 s1 (unsub_inv s s2 ch hinv hc) (unsub_keys s s2 ch hinv hnd hc) h

/-- In a reached registry the stop channel of every entry is open: `unsub` closes it
and deletes the entry in one critical section. -/
theorem runCalls_entries_open (calls : List (Call T)) (s : Subscriber T)
    (hrun : runCalls calls (NewSubscriber T) = .done s) :
    ∀ p ∈ s.entries, p.2.stop ∉ s.closed := by
  have hinv := runCalls_inv calls _ s NewSubscriber_inv hrun
  have hnd := runCalls_keys calls _ s NewSubscriber_inv List.nodup_nil hrun
  intro p hp
  have hg : mapGet s.subs p.1 = some p.2 := by
    rcases s with ⟨subs, n, cl, ps⟩
    cases subs with
    | none => cases hp
    | some l => exact mapGet_of_mem l hnd p hp
  exact (hinv.1 p.1 p.2 hg).2.2

/-! ## Claims about `Listen`, `publish` and the zero value -/

/-- C12: `Listen` calls `publish` with each value it receives from the source before it
receives the next, in source order; it returns nil when it finds the source
closed, returns the non-nil `ctx.Err()` when it takes the branch of the cancelled
context, whatever was received before, and has not returned while neither
happened. -/
theorem C12_listen_publishes_in_order (s : Subscriber T) (msgs : List T)
    (rest : List (Sel T)) (err : CtxErr) :
    (s.Listen (msgs.map Sel.recv ++ .srcClosed :: rest)).2 =
      (listenTrace msgs, some none) ∧
    (s.Listen (msgs.map Sel.recv ++ .ctxDone err :: rest)).2 =
      (listenTrace msgs, some (some err)) ∧
    (some (some err) : Option (Option CtxErr)) ≠ some none ∧
    (s.Listen (msgs.map Sel.recv)).2 = (listenTrace msgs, none) ∧
    (∀ m : T, listenTrace (msgs ++ [m]) =
      listenTrace msgs ++ [ListenEv.pulled m, ListenEv.published m]) ∧
    ∀ sels : List (Sel T), (s.Listen sels).1.entries = s.entries := by
  refine ⟨?_, ?_, by simp, ?_, ?_, ?_⟩
  · simp only [Subscriber.Listen, listenLoop_recv, listenLoop, List.append_nil]
  · simp only [Subscriber.Listen, listenLoop_recv, listenLoop, List.append_nil]
  · have h := listenLoop_recv msgs ([] : List (Sel T))
    simp only [List.append_nil, listenLoop] at h
    simp only [Subscriber.Listen, h]
  · intro m
    simp [listenTrace]
  · intro sels
    rcases s with ⟨subs, n, cl, ps⟩
    cases subs <;> rfl

/-- C13: `Subscribe` with a nil filter on an endpoint that is not registered stores a
subscription whose filter returns true for every value, and `publish`, in any
iteration order and for any value, hands the value to that endpoint when the
handoffs take their send branch. -/
theorem C13_nil_filter_accepts_all (s : Subscriber T) (ch : Nat)
    (hfree : mapGet s.subs ch = none) :
    ∃ s1 sub, s.Subscribe ch none = .done s1 ∧ mapGet s1.subs ch = some sub ∧
      (∀ m, sub.filter m = true) ∧
      ∀ (value : T) (choice : Nat → Handoff)
        (order : List (Nat × pipeSub T) → List (Nat × pipeSub T)),
        (∀ l, (order l).Perm l) → (∀ k, choice k = .sent) →
          ch ∈ s1.publish value choice order := by
  have hd := Subscribe_unregistered s ch none hfree
  refine ⟨_, _, hd, (mapGet_mapSet _ _ _ _).trans (if_pos rfl), fun _ => rfl, ?_⟩
  intro value choice order hperm hsent
  unfold Subscriber.publish
  rw [publishLoop_all_sent value choice _ (fun p _ _ => hsent p.1)]
  unfold accepting
  rw [List.mem_map]
  refine ⟨(ch, ⟨fun _ => true, s.nextChan, s.nextChan + 1⟩), ?_, rfl⟩
  rw [List.mem_filter]
  refine ⟨(hperm _).mem_iff.mpr ?_, rfl⟩
  simp only [Subscriber.entries, mapSet]
  exact List.mem_cons_self _ _

/-- Instance of C13 on the zero-value subscriber and endpoint 3. -/
theorem C13_nil_filter_accepts_all_witness :
    mapGet (NewSubscriber Nat).subs 3 = none ∧
    ∃ s1 sub, (NewSubscriber Nat).Subscribe 3 none = .done s1 ∧
      mapGet s1.subs 3 = some sub ∧ (∀ m, sub.filter m = true) ∧
      ∀ (value : Nat) (choice : Nat → Handoff)
        (order : List (Nat × pipeSub Nat) → List (Nat × pipeSub Nat)),
        (∀ l, (order l).Perm l) → (∀ k, choice k = .sent) →
          3 ∈ s1.publish value choice order :=
  ⟨rfl, C13_nil_filter_accepts_all (NewSubscriber Nat) 3 rfl⟩

/-- C14: after `Listen` has returned nil because the source was closed, `Subscribe` does
not panic: it returns, the endpoint is registered and a goroutine is started.
Nothing in `Subscribe` looks at the source. -/
theorem C14_subscribe_after_closed_source_returns (msgs : List T) (ch : Nat)
    (filter : Option (T → Bool)) :
    ((NewSubscriber T).Listen (msgs.map Sel.recv ++ [.srcClosed])).2.2 = some none ∧
    ∃ s2 sub,
      ((NewSubscriber T).Listen (msgs.map Sel.recv ++ [.srcClosed])).1.Subscribe ch filter =
        .done s2 ∧
      mapGet s2.subs ch = some sub ∧ s2.pumps = [⟨ch, sub.queue, sub.stop⟩] := by
  refine ⟨?_, ?_⟩
  · simp only [Subscriber.Listen, listenLoop_recv, listenLoop]
  · have hfree : mapGet
        ((NewSubscriber T).Listen (msgs.map Sel.recv ++ [.srcClosed])).1.subs ch = none := rfl
    have hd := Subscribe_unregistered _ ch filter hfree
    exact ⟨_, _, hd, (mapGet_mapSet _ _ _ _).trans (if_pos rfl), rfl⟩

/-- C15: on the zero-value subscriber, whose map is nil, `Subscribe` returns with the
endpoint registered and nothing else, `Unsubscribe` returns the state as it was,
`publish` hands the value to nobody, and `Listen` replaces the nil map by an empty
one, publishes what it receives and returns nil when the source is closed. -/
theorem C15_zero_value_subscriber_is_valid (ch : Nat) (filter : Option (T → Bool))
    (value : T) (choice : Nat → Handoff)
    (order : List (Nat × pipeSub T) → List (Nat × pipeSub T)) (msgs : List T) :
    (NewSubscriber T).subs = none ∧
    (∃ s1 sub, (NewSubscriber T).Subscribe ch filter = .done s1 ∧
      mapGet s1.subs ch = some sub ∧ ∀ k, k ≠ ch → mapGet s1.subs k = none) ∧
    (NewSubscriber T).Unsubscribe ch = .done (NewSubscriber T) ∧
    ((∀ l, (order l).Perm l) → (NewSubscriber T).publish value choice order = []) ∧
    ((NewSubscriber T).Listen (msgs.map Sel.recv ++ [.srcClosed])).1.subs = some [] ∧
    ((NewSubscriber T).Listen (msgs.map Sel.recv ++ [.srcClosed])).2 =
      (listenTrace msgs, some none) := by
  refine ⟨rfl, ?_, rfl, ?_, rfl, ?_⟩
  · have hd := Subscribe_unregistered (NewSubscriber T) ch filter rfl
    refine ⟨_, _, hd, (mapGet_mapSet _ _ _ _).trans (if_pos rfl), ?_⟩
    intro k hk
    rw [mapGet_mapSet, if_neg hk]
    rfl
  · intro hperm
    unfold Subscriber.publish
    have he : (NewSubscriber T).entries = [] := rfl
    rw [he, List.Perm.eq_nil (hperm [])]
    rfl
  · simp only [Subscriber.Listen, listenLoop_recv, listenLoop, List.append_nil]

/-- C17: in every state of the registry reached from `NewSubscriber` the stop channel of
every entry is open, and it stays so while `publish` ranges over the entries, so
no handoff of `publish` finds the branch `case <-sub.stop` ready and the `return`
of that branch is never executed.  With every
handoff taking a ready branch, `publish` hands the value, in any iteration order,
to the same endpoints as the loop the specification describes, in which a fired
stop signal skips that subscriber alone and only the cancellation token ends the
loop; it hands the value to every accepting endpoint when no handoff takes the
cancellation branch; an accepting endpoint is skipped only when the handoff of an
accepting entry took the cancellation branch; and that branch ends `publish` with
exactly the accepting entries before it served. -/
theorem C17_publish_aborts_only_on_cancel (calls : List (Call T)) (s : Subscriber T)
    (value : T) (choice : Nat → Handoff)
    (order : List (Nat × pipeSub T) → List (Nat × pipeSub T))
    (hrun : runCalls calls (NewSubscriber T) = .done s)
    (hperm : ∀ l, (order l).Perm l)
    (hready : ∀ p ∈ s.entries, Handoff.ready s p.2 (choice p.1) = true) :
    (∀ p ∈ s.entries, p.2.stop ∉ s.closed ∧ Handoff.ready s p.2 .stopFired = false ∧
      choice p.1 ≠ .stopFired) ∧
    s.publish value choice order = specPublishLoop value choice (order s.entries) ∧
    ((∀ p ∈ s.entries, p.2.filter value = true → choice p.1 ≠ .ctxDone) →
      s.publish value choice order = accepting value (order s.entries)) ∧
    (∀ k ∈ accepting value (order s.entries), k ∉ s.publish value choice order →
      ∃ p ∈ s.entries, p.2.filter value = true ∧ choice p.1 = .ctxDone) ∧
    (∀ pre post ch sub, order s.entries = pre ++ (ch, sub) :: post →
      (∀ p ∈ pre, p.2.filter value = true → choice p.1 = .sent) →
      sub.filter value = true →
      (choice ch = .ctxDone → s.publish value choice order = accepting value pre) ∧
      (choice ch = .sent → s.publish value choice order =
        accepting value pre ++ ch :: publishLoop value choice post)) := by
  have hopen := runCalls_entries_open calls s hrun
  have hoff : ∀ p ∈ s.entries, Handoff.ready s p.2 .stopFired = false := by
    intro p hp
    simp [Handoff.ready, hopen p hp]
  have hns : ∀ p ∈ s.entries, choice p.1 ≠ .stopFired := by
    intro p hp hc
    have h1 := hready p hp
    rw [hc, hoff p hp] at h1
    cases h1
  have hall : (∀ p ∈ s.entries, p.2.filter value = true → choice p.1 ≠ .ctxDone) →
      s.publish value choice order = accepting value (order s.entries) := by
    intro hnc
    unfold Subscriber.publish
    refine publishLoop_all_sent value choice _ ?_
    intro p hp hf
    have hp1 : p ∈ s.entries := (hperm _).mem_iff.mp hp
    cases hc : choice p.1 with
    | ctxDone => exact absurd hc (hnc p hp1 hf)
    | stopFired => exact absurd hc (hns p hp1)
    | sent => rfl
  refine ⟨fun p hp => ⟨hopen p hp, hoff p hp, hns p hp⟩, ?_, hall, ?_, ?_⟩
  · unfold Subscriber.publish
    exact publishLoop_eq_spec value choice _
      (fun p hp => hns p ((hperm _).mem_iff.mp hp))
  · intro k hk hnk
    by_contra hne
    refine hnk ?_
    rw [hall ?_]
    · exact hk
    · intro p hp hf hc
      exact hne ⟨p, hp, hf, hc⟩
  · intro pre post ch sub ho hpre hacc
    have h := publishLoop_prefix value choice pre post ch sub hpre hacc
    unfold Subscriber.publish
    rw [ho, h]
    refine ⟨?_, ?_⟩
    · intro hc
      rw [hc]
      simp
    · intro hc
      rw [hc]

/-- Instance of C17: endpoints 1 to 4 are subscribed, 2 with a filter for even values,
and 4 is unsubscribed again; the value 5 is published, the entries come in the
order 1, 2, 3, and the handoff to 3 takes the cancellation branch.  Endpoint 1 is
served, 2 is skipped by its filter, and `publish` returns at 3. -/
theorem C17_publish_aborts_only_on_cancel_witness :
    ∃ s : Subscriber Nat,
      runCalls [.subscribe 1 none, .subscribe 2 (some fun m : Nat => m % 2 == 0),
        .subscribe 3 none, .subscribe 4 none, .unsubscribe 4] (NewSubscriber Nat) = .done s ∧
      s.closed = [7] ∧
      (List.reverse s.entries).map Prod.fst = [1, 2, 3] ∧
      s.publish 5 (fun ch => if ch = 3 then Handoff.ctxDone else Handoff.sent) List.reverse =
        [1] ∧
      specPublishLoop 5 (fun ch => if ch = 3 then Handoff.ctxDone else Handoff.sent)
        (List.reverse s.entries) = [1] := by
  obtain ⟨s, hs⟩ : ∃ s : Subscriber Nat,
      runCalls [.subscribe 1 none, .subscribe 2 (some fun m : Nat => m % 2 == 0),
        .subscribe 3 none, .subscribe 4 none, .unsubscribe 4] (NewSubscriber Nat) = .done s :=
    ⟨_, rfl⟩
  have hc : s.closed = [7] := by cases hs; rfl
  have he : (List.reverse s.entries).map Prod.fst = [1, 2, 3] := by cases hs; rfl
  have hp : s.publish 5 (fun ch => if ch = 3 then Handoff.ctxDone else Handoff.sent)
      List.reverse = [1] := by cases hs; rfl
  have h := C17_publish_aborts_only_on_cancel _ s 5
    (fun ch => if ch = 3 then Handoff.ctxDone else Handoff.sent) List.reverse hs
    (fun l => List.reverse_perm l)
    (by
      intro p _
      by_cases h3 : p.1 = 3 <;> simp [h3, Handoff.ready])
  exact ⟨s, hs, hc, he, hp, by rw [← h.2.1, hp]⟩

/-! ## Registry, goroutines and endpoints together -/

theorem eventsOn_append (log : List (Nat × ChanEv)) (e1 e : Nat) (ev : ChanEv) :
    eventsOn (log ++ [(e1, ev)]) e =
      if e1 = e then eventsOn log e ++ [ev] else eventsOn log e := by
  unfold eventsOn
  rw [List.filter_append, List.map_append]
  by_cases h : e1 = e
  · simp [h]
  · simp [h]

theorem eventsOn_eq_nil (log : List (Nat × ChanEv)) (e : Nat)
    (h : ∀ x ∈ log, x.1 ≠ e) : eventsOn log e = [] := by
  unfold eventsOn
  rw [List.map_eq_nil_iff, List.filter_eq_nil_iff]
  intro x hx
  simpa using h x hx

theorem eventsOn_ne_nil (log : List (Nat × ChanEv)) (e : Nat)
    (h : eventsOn log e ≠ []) : ∃ x ∈ log, x.1 = e := by
  by_contra hcon
  push_neg at hcon
  exact h (eventsOn_eq_nil log e hcon)

theorem closeCount_append (evs : List ChanEv) (ev : ChanEv) :
    closeCount (evs ++ [ev]) = closeCount evs + (if ev = .close then 1 else 0) := by
  unfold closeCount
  rw [List.count_append]
  cases ev <;> simp

theorem evOk_of_closeCount_zero (evs : List ChanEv) (h : closeCount evs = 0) :
    evOk evs = true := by
  induction evs with
  | nil => rfl
  | cons ev evs ih =>
    cases ev with
    | send =>
      simp only [evOk]
      apply ih
      simpa [closeCount] using h
    | close => simp [closeCount] at h

theorem evOk_append_close (evs : List ChanEv) (h : closeCount evs = 0) :
    evOk (evs ++ [.close]) = true := by
  induction evs with
  | nil => rfl
  | cons ev evs ih =>
    cases ev with
    | send =>
      simp only [List.cons_append, evOk]
      apply ih
      simpa [closeCount] using h
    | close => simp [closeCount] at h

theorem closeCount_le_one_of_evOk (evs : List ChanEv) (h : evOk evs = true) :
    closeCount evs ≤ 1 := by
  induction evs with
  | nil => simp [closeCount]
  | cons ev evs ih =>
    cases ev with
    | send =>
      simp only [evOk] at h
      have := ih h
      simpa [closeCount] using this
    | close =>
      simp only [evOk, List.isEmpty_iff] at h
      subst h
      simp [closeCount]

/-- The branches `pumpRecv` and `pumpSend` are taken by a running goroutine and leave
it running, with its view of `stop` as it was. -/
theorem step_pump_frame (f : T → Bool) (s s1 : SubSys T) (a : Act T)
    (h : step f s a = some s1) (ha : a = .pumpRecv ∨ a = .pumpSend) :
    s.pump.running = true ∧ s1.pump.running = true ∧ s1.stopClosed = s.stopClosed := by
  rcases ha with ha | ha
  · subst ha
    simp only [step] at h
    split_ifs at h with hr
    simp only [Bool.not_eq_true', Bool.not_eq_false] at hr
    cases hrel : s.relay with
    | nil => rw [hrel] at h; cases h
    | cons msg rest =>
      rw [hrel] at h
      simp only at h
      cases hq : s.pump.pending.Enqueue msg with
      | none => rw [hq] at h; cases h
      | some q =>
        rw [hq] at h
        cases h
        exact ⟨hr, hr, rfl⟩
  · subst ha
    simp only [step] at h
    split_ifs at h with hr
    simp only [Bool.or_eq_true, Bool.not_eq_true', not_or, Bool.not_eq_false] at hr
    cases hp : s.pump.pending.PendingOrZero with
    | none => rw [hp] at h; cases h
    | some r =>
      rw [hp] at h
      simp only [Option.some_bind] at h
      cases hq : r.2.Dequeue with
      | none => rw [hq] at h; cases h
      | some q =>
        rw [hq] at h
        cases h
        exact ⟨hr.1, hr.1, rfl⟩

/-- The branch `case <-stop` is taken by a running goroutine whose stop channel is
closed, and the goroutine has returned after it. -/
theorem step_stop_effect (f : T → Bool) (s s1 : SubSys T)
    (h : step f s .pumpStop = some s1) :
    s.pump.running = true ∧ s.stopClosed = true ∧ s1.pump.running = false ∧
      s1.stopClosed = true := by
  simp only [step] at h
  split_ifs at h with c
  cases h
  simp only [Bool.and_eq_true] at c
  exact ⟨c.1, c.2, rfl, c.2⟩

theorem step_publish_frame (f : T → Bool) (s s1 : SubSys T) (m : T)
    (h : step f s (.publish m) = some s1) :
    s1.pump.running = s.pump.running ∧ s1.stopClosed = s.stopClosed := by
  simp only [step] at h
  split_ifs at h <;> cases h <;> exact ⟨rfl, rfl⟩

theorem step_stop_enabled (f : T → Bool) (s : SubSys T) (hr : s.pump.running = true)
    (hs : s.stopClosed = true) : ∃ s1, step f s .pumpStop = some s1 := by
  simp [step, hr, hs]

/-- Two goroutines with the same endpoint are the same goroutine, when no endpoint was
subscribed twice. -/
theorem procs_ch_inj (n : Net T) (hinv : NetInv n)
    (hnd : (n.reg.pumps.map PumpRef.ch).Nodup) (j k : Nat) (pj pk : Proc T)
    (hj : n.procs j = some pj) (hk : n.procs k = some pk)
    (hch : pj.ref.ch = pk.ref.ch) : j = k := by
  obtain ⟨j1, j2, _⟩ := hinv.2.2.1 j pj hj
  obtain ⟨k1, k2, _⟩ := hinv.2.2.1 k pk hk
  have href : pj.ref = pk.ref := List.inj_on_of_nodup_map hnd j2 k2 hch
  rw [← j1, ← k1, href]

/-- A step of one goroutine that changes only its own state and logs at most one event
on its own endpoint keeps the invariant, given what the invariant asks of that
goroutine afterwards. -/
theorem setProc_inv (n : Net T) (hinv : NetInv n)
    (hnd : (n.reg.pumps.map PumpRef.ch).Nodup) (k : Nat) (p : Proc T) (s1 : SubSys T)
    (log1 : List (Nat × ChanEv)) (hk : n.procs k = some p)
    (hlog : log1 = n.log ∨ ∃ ev, log1 = n.log ++ [(p.ref.ch, ev)])
    (hsc : s1.stopClosed = true ↔ k ∈ n.reg.closed)
    (hrs : s1.pump.running = false → s1.stopClosed = true)
    (hc0 : s1.pump.running = true → closeCount (eventsOn log1 p.ref.ch) = 0)
    (hc1 : s1.pump.running = false →
      evOk (eventsOn log1 p.ref.ch) = true ∧ closeCount (eventsOn log1 p.ref.ch) = 1) :
    NetInv (Net.setProc ⟨n.reg, n.procs, log1⟩ k { p with sys := s1 }) := by
  obtain ⟨i1, i2, i3, i4⟩ := hinv
  have hother : ∀ j q, n.procs j = some q → j ≠ k →
      eventsOn log1 q.ref.ch = eventsOn n.log q.ref.ch := by
    intro j q hj hjk
    rcases hlog with h | ⟨ev, h⟩
    · rw [h]
    · rw [h, eventsOn_append, if_neg]
      intro hch
      exact hjk (procs_ch_inj n ⟨i1, i2, i3, i4⟩ hnd j k q p hj hk hch.symm)
  refine ⟨i1, i2, ?_, ?_⟩
  · intro j q hj
    simp only [Net.setProc] at hj
    by_cases hjk : j = k
    · rw [if_pos hjk] at hj
      cases hj
      obtain ⟨a1, a2, _⟩ := i3 k p hk
      subst hjk
      exact ⟨a1, a2, hsc, hrs, hc0, hc1⟩
    · rw [if_neg hjk] at hj
      obtain ⟨a1, a2, a3, a4, a5, a6⟩ := i3 j q hj
      have he := hother j q hj hjk
      refine ⟨a1, a2, a3, a4, ?_, ?_⟩
      · intro hr
        show closeCount (eventsOn log1 q.ref.ch) = 0
        rw [he]
        exact a5 hr
      · intro hr
        show evOk (eventsOn log1 q.ref.ch) = true ∧ closeCount (eventsOn log1 q.ref.ch) = 1
        rw [he]
        exact a6 hr
  · intro x hx
    have hx1 : x ∈ log1 := hx
    have hold : ∀ y ∈ n.log, ∃ j q,
        (Net.setProc ⟨n.reg, n.procs, log1⟩ k { p with sys := s1 }).procs j = some q ∧
          q.ref.ch = y.1 := by
      intro y hy
      obtain ⟨j, q, hj, hq⟩ := i4 y hy
      by_cases hjk : j = k
      · subst hjk
        rw [hk] at hj
        cases hj
        exact ⟨j, { p with sys := s1 }, by simp [Net.setProc], hq⟩
      · exact ⟨j, q, by simp [Net.setProc, hjk, hj], hq⟩
    rcases hlog with h | ⟨ev, h⟩
    · rw [h] at hx1
      exact hold x hx1
    · rw [h, List.mem_append, List.mem_singleton] at hx1
      rcases hx1 with hx1 | hx1
      · exact hold x hx1
      · subst hx1
        exact ⟨k, { p with sys := s1 }, by simp [Net.setProc], rfl⟩

theorem Unsubscribe_pumps (s s1 : Subscriber T) (ch : Nat)
    (h : s.Unsubscribe ch = .done s1) : s1.pumps = s.pumps := by
  unfold Subscriber.Unsubscribe Subscriber.unsub at h
  cases hg : mapGet s.subs ch with
  | none =>
    rw [hg] at h
    cases h
    rfl
  | some sub =>
    rw [hg] at h
    simp only at h
    split_ifs at h
    cases h
    rfl

theorem Subscribe_pumps (s s1 : Subscriber T) (ch : Nat) (filter : Option (T → Bool))
    (h : s.Subscribe ch filter = .done s1) :
    s1.pumps = ⟨ch, s.nextChan, s.nextChan + 1⟩ :: s.pumps ∧ mapGet s.subs ch = none := by
  cases hg : mapGet s.subs ch with
  | some sub => rw [Subscribe_registered s ch filter sub hg] at h; cases h
  | none =>
    rw [Subscribe_unregistered s ch filter hg] at h
    cases h
    exact ⟨rfl, rfl⟩

/-- A step starts at most one goroutine and forgets none. -/
theorem netStep_pumps (n n1 : Net T) (a : NetAct T) (h : netStep n a = some n1) :
    ∃ l, n1.reg.pumps = l ++ n.reg.pumps := by
  cases a with
  | subscribe ch filter =>
    simp only [netStep] at h
    cases hs : n.reg.Subscribe ch filter with
    | panicked msg s => rw [hs] at h; cases h
    | done reg1 =>
      rw [hs] at h
      simp only at h
      have hp := (Subscribe_pumps n.reg reg1 ch filter hs).1
      split at h
      · cases h
        exact ⟨[_], hp⟩
      · cases h
  | unsubscribe ch =>
    simp only [netStep] at h
    cases hs : n.reg.Unsubscribe ch with
    | panicked msg s => rw [hs] at h; cases h
    | done reg1 =>
      rw [hs] at h
      simp only at h
      have hp := Unsubscribe_pumps n.reg reg1 ch hs
      split at h
      · cases h
        exact ⟨[], hp⟩
      · split at h
        · cases h
          exact ⟨[], hp⟩
        · cases h
          exact ⟨[], hp⟩
  | handoff k m =>
    simp only [netStep] at h
    cases hk : n.procs k with
    | none => rw [hk] at h; cases h
    | some p =>
      rw [hk] at h
      simp only at h
      split at h
      · cases h
      · split_ifs at h
        cases hs : step p.filter p.sys (.publish m) with
        | none => rw [hs] at h; cases h
        | some s1 =>
          rw [hs] at h
          cases h
          exact ⟨[], rfl⟩
  | pump k a =>
    simp only [netStep] at h
    cases hk : n.procs k with
    | none => rw [hk] at h; cases h
    | some p =>
      rw [hk] at h
      simp only at h
      cases a with
      | pumpRecv =>
        simp only at h
        cases hs : step p.filter p.sys .pumpRecv with
        | none => rw [hs] at h; cases h
        | some s1 =>
          rw [hs] at h
          cases h
          exact ⟨[], rfl⟩
      | pumpSend =>
        simp only at h
        cases hs : step p.filter p.sys .pumpSend with
        | none => rw [hs] at h; cases h
        | some s1 =>
          rw [hs] at h
          cases h
          exact ⟨[], rfl⟩
      | pumpStop =>
        simp only at h
        cases hs : step p.filter p.sys .pumpStop with
        | none => rw [hs] at h; cases h
        | some s1 =>
          rw [hs] at h
          cases h
          exact ⟨[], rfl⟩
      | publish m => simp only at h; cases h
      | publishCtxDone m => simp only at h; cases h
      | cancel => simp only at h; cases h
      | unsubscribe => simp only at h; cases h

theorem nodup_of_append (l pumps : List PumpRef)
    (h : ((l ++ pumps).map PumpRef.ch).Nodup) : (pumps.map PumpRef.ch).Nodup := by
  rw [List.map_append] at h
  exact (List.nodup_append.mp h).2.1

theorem netStep_pump_inv (n n1 : Net T) (k : Nat) (a : Act T) (hinv : NetInv n)
    (hnd : (n.reg.pumps.map PumpRef.ch).Nodup) (h : netStep n (.pump k a) = some n1) :
    NetInv n1 := by
  simp only [netStep] at h
  cases hk : n.procs k with
  | none => rw [hk] at h; cases h
  | some p =>
    rw [hk] at h
    simp only at h
    obtain ⟨_, _, a3, a4, a5, a6⟩ := hinv.2.2.1 k p hk
    cases a with
    | pumpRecv =>
      simp only at h
      cases hs : step p.filter p.sys .pumpRecv with
      | none => rw [hs] at h; cases h
      | some s1 =>
        rw [hs] at h
        cases h
        obtain ⟨f1, f2, f3⟩ := step_pump_frame _ _ _ _ hs (Or.inl rfl)
        exact setProc_inv n hinv hnd k p s1 n.log hk (Or.inl rfl)
          (by rw [f3]; exact a3) (by intro hh; rw [f2] at hh; cases hh)
          (fun _ => a5 f1) (by intro hh; rw [f2] at hh; cases hh)
    | pumpSend =>
      simp only at h
      cases hs : step p.filter p.sys .pumpSend with
      | none => rw [hs] at h; cases h
      | some s1 =>
        rw [hs] at h
        cases h
        obtain ⟨f1, f2, f3⟩ := step_pump_frame _ _ _ _ hs (Or.inr rfl)
        refine setProc_inv n hinv hnd k p s1 _ hk (Or.inr ⟨.send, rfl⟩)
          (by rw [f3]; exact a3) (by intro hh; rw [f2] at hh; cases hh)
          ?_ (by intro hh; rw [f2] at hh; cases hh)
        intro _
        rw [eventsOn_append, if_pos rfl, closeCount_append, a5 f1]
        rfl
    | pumpStop =>
      simp only at h
      cases hs : step p.filter p.sys .pumpStop with
      | none => rw [hs] at h; cases h
      | some s1 =>
        rw [hs] at h
        cases h
        obtain ⟨f1, f2, f3, f4⟩ := step_stop_effect _ _ _ hs
        refine setProc_inv n hinv hnd k p s1 _ hk (Or.inr ⟨.close, rfl⟩)
          ⟨fun _ => a3.mp f2, fun _ => f4⟩ (fun _ => f4)
          (by intro hh; rw [f3] at hh; cases hh) ?_
        intro _
        rw [eventsOn_append, if_pos rfl, closeCount_append, a5 f1]
        exact ⟨evOk_append_close _ (a5 f1), rfl⟩
    | publish m => simp only at h; cases h
    | publishCtxDone m => simp only at h; cases h
    | cancel => simp only at h; cases h
    | unsubscribe => simp only at h; cases h

theorem netStep_handoff_inv (n n1 : Net T) (k : Nat) (m : T) (hinv : NetInv n)
    (hnd : (n.reg.pumps.map PumpRef.ch).Nodup) (h : netStep n (.handoff k m) = some n1) :
    NetInv n1 := by
  simp only [netStep] at h
  cases hk : n.procs k with
  | none => rw [hk] at h; cases h
  | some p =>
    rw [hk] at h
    simp only at h
    obtain ⟨_, _, a3, a4, a5, a6⟩ := hinv.2.2.1 k p hk
    split at h
    · cases h
    · split_ifs at h
      cases hs : step p.filter p.sys (.publish m) with
      | none => rw [hs] at h; cases h
      | some s1 =>
        rw [hs] at h
        cases h
        obtain ⟨f1, f2⟩ := step_publish_frame _ _ _ _ hs
        exact setProc_inv n hinv hnd k p s1 n.log hk (Or.inl rfl)
          (by rw [f2]; exact a3) (by rw [f1, f2]; exact a4)
          (by rw [f1]; exact a5) (by rw [f1]; exact a6)

theorem netStep_subscribe_inv (n n1 : Net T) (ch : Nat) (filter : Option (T → Bool))
    (hinv : NetInv n) (h : netStep n (.subscribe ch filter) = some n1)
    (hnd1 : (n1.reg.pumps.map PumpRef.ch).Nodup) : NetInv n1 := by
  obtain ⟨i1, i2, i3, i4⟩ := hinv
  simp only [netStep] at h
  cases hs : n.reg.Subscribe ch filter with
  | panicked msg s => rw [hs] at h; cases h
  | done reg1 =>
    rw [hs] at h
    simp only at h
    obtain ⟨hp, hfree⟩ := Subscribe_pumps n.reg reg1 ch filter hs
    have hreg1 : RegInv reg1 := Subscribe_inv n.reg reg1 ch filter i1 hs
    have hcl : reg1.closed = n.reg.closed := by
      rw [Subscribe_unregistered n.reg ch filter hfree] at hs
      cases hs
      rfl
    rw [hp] at h
    simp only [List.head?_cons] at h
    split at h
    · rename_i ref sub s0 href hsub hs0
      cases href
      cases h
      have hnd : ch ∉ n.reg.pumps.map PumpRef.ch ∧ (n.reg.pumps.map PumpRef.ch).Nodup := by
        have hh : (reg1.pumps.map PumpRef.ch).Nodup := hnd1
        rw [hp, List.map_cons, List.nodup_cons] at hh
        exact hh
      obtain ⟨t0, ht0, _, _, _, _, _, _, hrun0, _, hsc0, _⟩ := init_spec (T := T)
      rw [ht0] at hs0
      cases hs0
      have hlt : ∀ j q, n.procs j = some q → j < n.reg.nextChan := by
        intro j q hj
        obtain ⟨a1, a2, _⟩ := i3 j q hj
        rw [← a1]
        exact (i1.2.2.2 q.ref a2).1
      have hnoev : ∀ x ∈ n.log, x.1 ≠ ch := by
        intro x hx hxc
        obtain ⟨j, q, hj, hq⟩ := i4 x hx
        obtain ⟨_, a2, _⟩ := i3 j q hj
        exact hnd.1 (List.mem_map.mpr ⟨q.ref, a2, by rw [hq, hxc]⟩)
      refine ⟨hreg1, by show reg1.closed.Nodup; rw [hcl]; exact i2, ?_, ?_⟩
      · intro j q hj
        simp only [Net.setProc] at hj
        by_cases hjk : j = n.reg.nextChan + 1
        · rw [if_pos hjk] at hj
          cases hj
          refine ⟨hjk.symm, by show _ ∈ reg1.pumps; rw [hp]; exact List.mem_cons_self _ _,
            ?_, ?_, ?_, ?_⟩
          · simp only [hsc0, Bool.false_eq_true, false_iff]
            intro hmem
            have hmem1 : j ∈ n.reg.closed := by rw [← hcl]; exact hmem
            have := i1.2.2.1 j hmem1
            omega
          · intro hh
            simp only [hrun0] at hh
            cases hh
          · intro _
            show closeCount (eventsOn n.log ch) = 0
            rw [eventsOn_eq_nil n.log ch hnoev]
            rfl
          · intro hh
            simp only [hrun0] at hh
            cases hh
        · rw [if_neg hjk] at hj
          obtain ⟨a1, a2, a3, a4, a5, a6⟩ := i3 j q hj
          refine ⟨a1, by show q.ref ∈ reg1.pumps; rw [hp]; exact List.mem_cons_of_mem _ a2,
            ?_, a4, a5, a6⟩
          show q.sys.stopClosed = true ↔ j ∈ reg1.closed
          rw [hcl]
          exact a3
      · intro x hx
        obtain ⟨j, q, hj, hq⟩ := i4 x hx
        have := hlt j q hj
        exact ⟨j, q, by simp only [Net.setProc]; rw [if_neg (by omega)]; exact hj, hq⟩
    · cases h

theorem netStep_unsubscribe_inv (n n1 : Net T) (ch : Nat) (hinv : NetInv n)
    (h : netStep n (.unsubscribe ch) = some n1) : NetInv n1 := by
  obtain ⟨i1, i2, i3, i4⟩ := hinv
  simp only [netStep, Subscriber.Unsubscribe] at h
  cases hg : mapGet n.reg.subs ch with
  | none =>
    rw [unsub_unregistered n.reg ch hg] at h
    simp only [hg] at h
    cases h
    exact ⟨i1, i2, i3, i4⟩
  | some sub =>
    have hu := unsub_registered n.reg ch sub i1 hg
    have hreg1 := unsub_inv n.reg _ ch i1 hu
    rw [hu] at h
    simp only [hg] at h
    have hopen : sub.stop ∉ n.reg.closed := (i1.1 ch sub hg).2.2
    have hnd1 : (sub.stop :: n.reg.closed).Nodup := List.nodup_cons.mpr ⟨hopen, i2⟩
    cases hp : n.procs sub.stop with
    | none =>
      rw [hp] at h
      cases h
      refine ⟨hreg1, hnd1, ?_, i4⟩
      intro j q hj
      obtain ⟨a1, a2, a3, a4, a5, a6⟩ := i3 j q hj
      refine ⟨a1, a2, ?_, a4, a5, a6⟩
      show q.sys.stopClosed = true ↔ j ∈ sub.stop :: n.reg.closed
      have hne : j ≠ sub.stop := by
        intro hh
        rw [hh, hp] at hj
        cases hj
      simp only [List.mem_cons, hne, false_or]
      exact a3
    | some p =>
      rw [hp] at h
      cases h
      refine ⟨hreg1, hnd1, ?_, ?_⟩
      · intro j q hj
        simp only [Net.setProc] at hj
        by_cases hjk : j = sub.stop
        · rw [if_pos hjk] at hj
          cases hj
          obtain ⟨a1, a2, a3, a4, a5, a6⟩ := i3 sub.stop p hp
          refine ⟨by rw [hjk]; exact a1, a2, ?_, fun _ => rfl, a5, a6⟩
          show true = true ↔ j ∈ sub.stop :: n.reg.closed
          simp [hjk]
        · rw [if_neg hjk] at hj
          obtain ⟨a1, a2, a3, a4, a5, a6⟩ := i3 j q hj
          refine ⟨a1, a2, ?_, a4, a5, a6⟩
          show q.sys.stopClosed = true ↔ j ∈ sub.stop :: n.reg.closed
          simp only [List.mem_cons, hjk, false_or]
          exact a3
      · intro x hx
        obtain ⟨j, q, hj, hq⟩ := i4 x hx
        by_cases hjk : j = sub.stop
        · subst hjk
          rw [hp] at hj
          cases hj
          exact ⟨sub.stop, { p with sys := { p.sys with stopClosed := true } },
            by simp [Net.setProc], hq⟩
        · exact ⟨j, q, by simp [Net.setProc, hjk, hj], hq⟩

/-- Every step keeps the invariant, as long as no endpoint has been subscribed twice. -/
theorem netStep_inv (n n1 : Net T) (a : NetAct T) (hinv : NetInv n)
    (h : netStep n a = some n1) (hnd1 : (n1.reg.pumps.map PumpRef.ch).Nodup) :
    NetInv n1 := by
  obtain ⟨l, hl⟩ := netStep_pumps n n1 a h
  have hnd : (n.reg.pumps.map PumpRef.ch).Nodup := by
    rw [hl] at hnd1
    exact nodup_of_append l _ hnd1
  cases a with
  | subscribe ch filter => exact netStep_subscribe_inv n n1 ch filter hinv h hnd1
  | unsubscribe ch => exact netStep_unsubscribe_inv n n1 ch hinv h
  | handoff k m => exact netStep_handoff_inv n n1 k m hinv hnd h
  | pump k a => exact netStep_pump_inv n n1 k a hinv hnd h

theorem netRun_pumps (acts : List (NetAct T)) :
    ∀ n n1 : Net T, netRun acts n = some n1 → ∃ l, n1.reg.pumps = l ++ n.reg.pumps := by
  induction acts with
  | nil =>
    intro n n1 h
    cases h
    exact ⟨[], rfl⟩
  | cons a acts ih =>
    intro n n1 h
    simp only [netRun] at h
    cases hs : netStep n a with
    | none => rw [hs] at h; cases h
    | some n2 =>
      rw [hs, Option.some_bind] at h
      obtain ⟨l1, h1⟩ := netStep_pumps n n2 a hs
      obtain ⟨l2, h2⟩ := ih n2 n1 h
      exact ⟨l2 ++ l1, by rw [h2, h1, List.append_assoc]⟩

theorem netRun_inv (acts : List (NetAct T)) :
    ∀ n n1 : Net T, NetInv n → netRun acts n = some n1 →
      (n1.reg.pumps.map PumpRef.ch).Nodup → NetInv n1 := by
  induction acts with
  | nil =>
    intro n n1 hinv h _
    cases h
    exact hinv
  | cons a acts ih =>
    intro n n1 hinv h hnd1
    simp only [netRun] at h
    cases hs : netStep n a with
    | none => rw [hs] at h; cases h
    | some n2 =>
      rw [hs, Option.some_bind] at h
      obtain ⟨l2, h2⟩ := netRun_pumps acts n2 n1 h
      have hnd2 : (n2.reg.pumps.map PumpRef.ch).Nodup := by
        rw [h2] at hnd1
        exact nodup_of_append l2 _ hnd1
      exact ih n2 n1 (netStep_inv n n2 a hinv hs hnd2) h hnd1

theorem init_netInv : NetInv (Net.init T) := by
  refine ⟨NewSubscriber_inv, List.nodup_nil, ?_, ?_⟩
  · intro k p h
    cases h
  · intro x hx
    cases hx

/-! ## Claim about the closing of endpoints -/

/-- Counterexample to C11 as stated: endpoint 3 is subscribed, unsubscribed, subscribed
again and unsubscribed again, never while registered.  Two goroutines were started
for it, with stop channels 1 and 3; when both take `case <-stop`, endpoint 3 is
closed twice.  In a second run the first goroutine closes endpoint 3 and the
second one then sends to it. -/
theorem C11_counterexample_resubscribed_endpoint_closed_twice :
    (netRun [.subscribe 3 none, .unsubscribe 3] (Net.init Nat)).map
      (fun n => (mapGet n.reg.subs 3).isSome) = some false ∧
    (netRun [.subscribe 3 none, .unsubscribe 3, .subscribe 3 none, .unsubscribe 3,
        .pump 1 .pumpStop, .pump 3 .pumpStop] (Net.init Nat)).map
      (fun n => (n.log, closeCount (eventsOn n.log 3), evOk (eventsOn n.log 3))) =
      some ([(3, .close), (3, .close)], 2, false) ∧
    (netRun [.subscribe 3 none, .unsubscribe 3, .subscribe 3 none, .handoff 3 7,
        .pump 3 .pumpRecv, .pump 1 .pumpStop, .pump 3 .pumpSend] (Net.init Nat)).map
      (fun n => (n.log, evOk (eventsOn n.log 3))) =
      some ([(3, .close), (3, .send)], false) := by
  refine ⟨by decide, by decide, by decide⟩

/-- C11 amended: along every interleaving of `Subscribe` and `Unsubscribe` calls,
handoffs and goroutine branches in which no endpoint is subscribed more than once,
every subscription in the registry has an open stop channel and no stop channel is
closed twice; on every endpoint the events are sends followed by at most one
`close` and nothing after it; an endpoint has been closed only by a goroutine
whose stop channel is closed, and while the stop channel is open the closing
branch is not enabled; and once the stop channel of a goroutine is closed its
endpoint either has been closed exactly once or the closing branch is enabled and
closes it for the first time. -/
theorem C11_endpoint_closed_at_most_once (acts : List (NetAct T)) (n : Net T)
    (hrun : netRun acts (Net.init T) = some n)
    (hnd : (n.reg.pumps.map PumpRef.ch).Nodup) :
    (∀ ch sub, mapGet n.reg.subs ch = some sub → sub.stop ∉ n.reg.closed) ∧
    n.reg.closed.Nodup ∧
    (∀ e, evOk (eventsOn n.log e) = true ∧ closeCount (eventsOn n.log e) ≤ 1) ∧
    (∀ k p, n.procs k = some p → 1 ≤ closeCount (eventsOn n.log p.ref.ch) →
      k ∈ n.reg.closed ∧ p.sys.pump.running = false) ∧
    (∀ k p, n.procs k = some p → k ∉ n.reg.closed →
      netStep n (.pump k .pumpStop) = none) ∧
    (∀ k p, n.procs k = some p → k ∈ n.reg.closed →
      closeCount (eventsOn n.log p.ref.ch) = 1 ∨
      ∃ n1, netStep n (.pump k .pumpStop) = some n1 ∧
        closeCount (eventsOn n1.log p.ref.ch) = 1) := by
  have hinv := netRun_inv acts _ n init_netInv hrun hnd
  obtain ⟨i1, i2, i3, i4⟩ := hinv
  refine ⟨fun ch sub h => (i1.1 ch sub h).2.2, i2, ?_, ?_, ?_, ?_⟩
  · intro e
    have hok : evOk (eventsOn n.log e) = true := by
      by_cases hnil : eventsOn n.log e = []
      · rw [hnil]; rfl
      · obtain ⟨x, hx, hxe⟩ := eventsOn_ne_nil n.log e hnil
        obtain ⟨k, p, hk, hp⟩ := i4 x hx
        obtain ⟨_, _, _, _, a5, a6⟩ := i3 k p hk
        rw [← hxe, ← hp]
        cases hr : p.sys.pump.running with
        | true => exact evOk_of_closeCount_zero _ (a5 hr)
        | false => exact (a6 hr).1
    exact ⟨hok, closeCount_le_one_of_evOk _ hok⟩
  · intro k p hk hc
    obtain ⟨_, _, a3, a4, a5, _⟩ := i3 k p hk
    cases hr : p.sys.pump.running with
    | true =>
      rw [a5 hr] at hc
      omega
    | false => exact ⟨a3.mp (a4 hr), rfl⟩
  · intro k p hk hopen
    obtain ⟨_, _, a3, _⟩ := i3 k p hk
    have hsc : p.sys.stopClosed = false := by
      cases hh : p.sys.stopClosed with
      | false => rfl
      | true => exact absurd (a3.mp hh) hopen
    simp [netStep, hk, step, hsc]
  · intro k p hk hcl
    obtain ⟨_, _, a3, _, a5, a6⟩ := i3 k p hk
    cases hr : p.sys.pump.running with
    | false => exact Or.inl (a6 hr).2
    | true =>
      right
      obtain ⟨s1, hs1⟩ := step_stop_enabled p.filter p.sys hr (a3.mpr hcl)
      refine ⟨Net.setProc { n with log := n.log ++ [(p.ref.ch, .close)] } k
        { p with sys := s1 }, ?_, ?_⟩
      · simp only [netStep, hk, hs1, Option.map_some']
      · show closeCount (eventsOn (n.log ++ [(p.ref.ch, ChanEv.close)]) p.ref.ch) = 1
        rw [eventsOn_append, if_pos rfl, closeCount_append, a5 hr]
        rfl

/-- Instance of C11 (amended): endpoints 3 and 5 are subscribed once each; endpoint 3
receives a value, is unsubscribed and closed by its goroutine; a second
`Unsubscribe` changes nothing. -/
theorem C11_endpoint_closed_at_most_once_witness :
    ∃ n : Net Nat,
      netRun [.subscribe 3 none, .subscribe 5 none, .handoff 1 7, .pump 1 .pumpRecv,
        .pump 1 .pumpSend, .unsubscribe 3, .pump 1 .pumpStop, .unsubscribe 3]
        (Net.init Nat) = some n ∧
      (n.reg.pumps.map PumpRef.ch).Nodup ∧
      n.log = [(3, .send), (3, .close)] ∧
      (∀ e, evOk (eventsOn n.log e) = true ∧ closeCount (eventsOn n.log e) ≤ 1) := by
  obtain ⟨n, hn⟩ : ∃ n : Net Nat,
      netRun [.subscribe 3 none, .subscribe 5 none, .handoff 1 7, .pump 1 .pumpRecv,
        .pump 1 .pumpSend, .unsubscribe 3, .pump 1 .pumpStop, .unsubscribe 3]
        (Net.init Nat) = some n := ⟨_, rfl⟩
  have hnd : (n.reg.pumps.map PumpRef.ch).Nodup := by cases hn; decide
  have hlog : n.log = [(3, .send), (3, .close)] := by cases hn; rfl
  exact ⟨n, hn, hnd, hlog, (C11_endpoint_closed_at_most_once _ n hn hnd).2.2.1⟩

end Pubsub
